import Mathlib

/-!
# Verification of `streamrip` (`src/main.rs`)

Shallow embedding of the stream-mirroring program in `src/main.rs`:
the URL→local-path mapper (`path_for_url`), the visited-set crawl engine
(`mirror_binary`, `mirror_manifest`, `mirror_mpd`), the HLS line rewriter,
the DASH walk with BaseURL/SegmentTemplate scoping, segment-range
derivation, and the restricted ISO-8601 duration parser.

Modelling conventions:
* Rust `&str` is modelled as Lean `String`; all string algorithms are
  reimplemented on `List Char` so every definition reduces in the kernel.
  Byte indices of the Rust code are modelled as character indices
  (the inputs the program manipulates are ASCII, where the two agree).
* `PathBuf` is modelled as its list of normalized components
  (`std::path::Components` drops empty and interior `.` components).
* `f64` is modelled as `ℚ`; the concrete values exercised by the spec are
  exactly representable, where the two arithmetics agree.
* The HTTP client (`reqwest`), the XML parser (`roxmltree`) and the
  filesystem are external collaborators: they enter the model as an
  oracle `fetch : Url → Option String`, a parameter
  `parseXml : String → Option Xml`, and a log of written files.
* `Url` and its `join` model the `url` crate's RFC 3986 reference
  resolution for the hierarchical (http/https) URLs this program handles.
-/

namespace StreamRip

/-! ## Character-list string machinery -/

/-- Split a character list at every occurrence of `sep`
(the semantics of Rust `str::split(char)`): always returns at least one
group, groups do not contain `sep`. -/
def chSplit (sep : Char) : List Char → List (List Char)
  | [] => [[]]
  | c :: cs =>
    match chSplit sep cs with
    | [] => [[]]
    | g :: gs => if c = sep then [] :: g :: gs else (c :: g) :: gs

/-- Join character-list groups with a separator character. -/
def chIntercalate (sep : Char) : List (List Char) → List Char
  | [] => []
  | [g] => g
  | g :: gs => g ++ sep :: chIntercalate sep gs

theorem chSplit_ne_nil (sep : Char) (cs : List Char) : chSplit sep cs ≠ [] := by
  cases cs with
  | nil => simp [chSplit]
  | cons c cs =>
    simp only [chSplit]
    cases h : chSplit sep cs with
    | nil => simp
    | cons g gs =>
      split
      · simp
      · split <;> simp

theorem chSplit_no_sep (sep : Char) (cs : List Char) :
    ∀ g ∈ chSplit sep cs, sep ∉ g := by
  induction cs with
  | nil => simp [chSplit]
  | cons c cs ih =>
    simp only [chSplit]
    cases h : chSplit sep cs with
    | nil => simp
    | cons g gs =>
      rw [h] at ih
      by_cases hc : c = sep
      · simpa [hc] using ih
      · intro g' hg'
        simp only [if_neg hc, List.mem_cons] at hg'
        rcases hg' with hg' | hg'
        · subst hg'
          intro hmem
          rcases List.mem_cons.mp hmem with hmem | hmem
          · exact hc hmem.symm
          · exact ih g (List.mem_cons_self _ _) hmem
        · exact ih g' (List.mem_cons_of_mem _ hg')

theorem chSplit_of_no_sep (sep : Char) (g : List Char) (hg : sep ∉ g) :
    chSplit sep g = [g] := by
  induction g with
  | nil => simp [chSplit]
  | cons c cs ihg =>
    have hc : c ≠ sep := fun h => hg (by simp [h])
    have hcs : sep ∉ cs := fun h => hg (by simp [h])
    simp only [chSplit, ihg hcs, if_neg hc]

theorem chSplit_append_sep (sep : Char) (g rest : List Char) (hg : sep ∉ g) :
    chSplit sep (g ++ sep :: rest) = g :: chSplit sep rest := by
  induction g with
  | nil =>
    simp only [List.nil_append, chSplit]
    cases h : chSplit sep rest with
    | nil => exact absurd h (chSplit_ne_nil sep rest)
    | cons x xs => simp
  | cons c cs ihg =>
    have hc : c ≠ sep := fun h => hg (by simp [h])
    have hcs : sep ∉ cs := fun h => hg (by simp [h])
    have hrec := ihg hcs
    simp only [List.cons_append, chSplit, List.append_eq, hrec, if_neg hc]

theorem chSplit_intercalate (sep : Char) :
    ∀ (gs : List (List Char)), gs ≠ [] → (∀ g ∈ gs, sep ∉ g) →
      chSplit sep (chIntercalate sep gs) = gs := by
  intro gs
  induction gs with
  | nil => intro h; exact absurd rfl h
  | cons g gs ih =>
    intro _ hns
    cases gs with
    | nil => exact chSplit_of_no_sep sep g (hns g (by simp))
    | cons g' gs' =>
      have hrest : chSplit sep (chIntercalate sep (g' :: gs')) = g' :: gs' :=
        ih (by simp) (fun x hx => hns x (List.mem_cons_of_mem _ hx))
      have hg : sep ∉ g := hns g (by simp)
      show chSplit sep (g ++ sep :: chIntercalate sep (g' :: gs')) = g :: g' :: gs'
      rw [chSplit_append_sep sep g _ hg, hrest]

/-- First index at which `needle` occurs as a contiguous sublist of `hay`
(the semantics of Rust `str::find(&str)`). -/
def chFind (needle : List Char) : List Char → Option Nat
  | [] => if needle = [] then some 0 else none
  | c :: cs =>
    if needle.isPrefixOf (c :: cs) then some 0
    else (chFind needle cs).map (· + 1)

/-- Replace every occurrence of `pat` in the subject, scanning left to right
(the semantics of Rust `str::replace`); `fuel` bounds the scan and is
instantiated with the subject's length, which always suffices for the
nonempty patterns the program uses. -/
def chReplaceAux (pat rep : List Char) : Nat → List Char → List Char
  | 0, s => s
  | fuel + 1, s =>
    match s with
    | [] => []
    | c :: cs =>
      if pat.isPrefixOf (c :: cs) ∧ pat ≠ [] then
        rep ++ chReplaceAux pat rep fuel ((c :: cs).drop pat.length)
      else
        c :: chReplaceAux pat rep fuel cs

/-! ## String-level wrappers -/

/-- Rust `str::split('/')` on a `String`. -/
def strSplitSlash (s : String) : List String :=
  (chSplit '/' s.toList).map String.mk

/-- Join strings with `'/'` (used for `Vec::join("/")` and for POSIX
relative paths). -/
def strJoinSlash (l : List String) : String :=
  String.mk (chIntercalate '/' (l.map String.toList))

/-- Rust `str::replace`. -/
def strReplace (s pat rep : String) : String :=
  String.mk (chReplaceAux pat.toList rep.toList s.toList.length s.toList)

/-- Rust `str::trim` (whitespace removed at both ends). -/
def strTrim (s : String) : String :=
  String.mk (((s.toList.dropWhile Char.isWhitespace).reverse.dropWhile
    Char.isWhitespace).reverse)

/-- Rust `str::trim_start`. -/
def strTrimStart (s : String) : String :=
  String.mk (s.toList.dropWhile Char.isWhitespace)

/-- Rust `str::trim_end`. -/
def strTrimEnd (s : String) : String :=
  String.mk ((s.toList.reverse.dropWhile Char.isWhitespace).reverse)

/-- Rust `str::starts_with(&str)`. -/
def strStartsWith (s p : String) : Bool :=
  p.toList.isPrefixOf s.toList

/-- Rust `str::ends_with(&str)`. -/
def strEndsWith (s p : String) : Bool :=
  p.toList.isSuffixOf s.toList

/-- Rust `str::to_ascii_lowercase`. -/
def strAsciiLower (s : String) : String :=
  String.mk (s.toList.map fun c =>
    if 'A' ≤ c ∧ c ≤ 'Z' then Char.ofNat (c.toNat + 32) else c)

/-- First `n` characters of a string (Rust byte slice `&s[..n]` on the
ASCII content handled here). -/
def strTake (s : String) (n : Nat) : String := String.mk (s.toList.take n)

/-- Characters of a string from index `n` (Rust `&s[n..]`). -/
def strDrop (s : String) (n : Nat) : String := String.mk (s.toList.drop n)

/-- Rust `str::lines()`: split on `'\n'`, drop a final empty piece produced
by a trailing newline, and strip one trailing `'\r'` from each line. -/
def linesRust (s : String) : List String :=
  let raw := chSplit '\n' s.toList
  let raw := if raw.getLast? = some [] then raw.dropLast else raw
  raw.map fun l =>
    String.mk (if l.getLast? = some '\r' then l.dropLast else l)

/-! ## URLs

Models the `url` crate (an external dependency of the program): an absolute
hierarchical URL with scheme, host, an absolute path string (always starting
with `'/'`), and an optional query. `Url::join` implements RFC 3986 §5
reference resolution, which is what the `url` crate performs for the
http/https URLs this program handles (fragments are not modelled; the
manifests the program rewrites do not carry them). -/

structure Url where
  scheme : String
  host : String
  path : String
  query : Option String
deriving DecidableEq, Repr

/-- The path split into segments: `"/a/b"` ↦ `["a","b"]`, `"/"` ↦ `[""]`.
One leading slash is removed before splitting. -/
def pathSegsOf (p : String) : List String :=
  strSplitSlash (String.mk (if p.toList.head? = some '/' then p.toList.tail else p.toList))

/-- RFC 3986 §5.2.4 remove_dot_segments on a segment list; a trailing `"."`
or `".."` leaves a trailing empty segment (directory form). -/
def rdsAux : List String → List String → List String
  | acc, [] => acc
  | acc, s :: rest =>
    if s = "." then (if rest = [] then acc ++ [""] else rdsAux acc rest)
    else if s = ".." then
      (if rest = [] then acc.dropLast ++ [""] else rdsAux acc.dropLast rest)
    else rdsAux (acc ++ [s]) rest

def removeDotSegments (segs : List String) : List String := rdsAux [] segs

/-- Rebuild an absolute path string from segments. -/
def segsToPath (segs : List String) : String :=
  "/" ++ strJoinSlash segs

/-- Split a reference string at its first `'?'` into path part and optional
query. -/
def splitQuery (r : List Char) : List Char × Option (List Char) :=
  match List.findIdx? (· = '?') r with
  | none => (r, none)
  | some i => (r.take i, some (r.drop (i + 1)))

/-- Parse an absolute `scheme://host/path?query` reference. -/
def parseAbsUrl (r : List Char) : Option Url :=
  match chFind [':', '/', '/'] r with
  | none => none
  | some i =>
    let scheme := r.take i
    let rest := r.drop (i + 3)
    let hostLen := (rest.takeWhile fun c => c ≠ '/' ∧ c ≠ '?').length
    let host := rest.take hostLen
    let after := rest.drop hostLen
    let pq := splitQuery after
    let pathStr := if pq.1 = [] then "/" else String.mk pq.1
    some { scheme := String.mk scheme, host := String.mk host,
           path := segsToPath (removeDotSegments (pathSegsOf pathStr)),
           query := pq.2.map String.mk }

/-- `Url::join(base, ref)`: RFC 3986 §5.3 reference resolution as performed
by the `url` crate for hierarchical URLs. -/
def urlJoin (base : Url) (ref : String) : Url :=
  let r := ref.toList
  match parseAbsUrl r with
  | some u => u
  | none =>
    let pq := splitQuery r
    let p := pq.1
    let q := pq.2.map String.mk
    if p = [] then
      let newQuery := match pq.2 with
        | some qv => some (String.mk qv)
        | none => base.query
      { base with query := newQuery }
    else if p.take 2 = ['/', '/'] then
      let rest := p.drop 2
      let hostLen := (rest.takeWhile fun c => c ≠ '/').length
      let hostPart := String.mk (rest.take hostLen)
      let pathPart := match rest.drop hostLen with
        | [] => "/"
        | l => String.mk l
      { base with host := hostPart,
                  path := segsToPath (removeDotSegments (pathSegsOf pathPart)),
                  query := q }
    else if p.head? = some '/' then
      { base with path := segsToPath (removeDotSegments (pathSegsOf (String.mk p))),
                  query := q }
    else
      let baseSegs := pathSegsOf base.path
      let merged := baseSegs.dropLast ++ strSplitSlash (String.mk p)
      { base with path := segsToPath (removeDotSegments merged), query := q }

/-! ## Local paths

`std::path::PathBuf` is modelled as the list of its normalized components
(`Components` skips empty and interior `"."` pieces; `".."` is kept).
The file-name/extension operations below follow the documented semantics of
`Path::file_name`, `Path::extension`, `PathBuf::set_extension` and
`PathBuf::set_file_name`. -/

abbrev FsPath := List String

/-- `Path::join(s)` for a relative `s`: append the normalized components
of `s`. -/
def pathJoin (p : FsPath) (s : String) : FsPath :=
  p ++ (strSplitSlash s).filter (fun c => c ≠ "" ∧ c ≠ ".")

/-- `Path::file_name`: the last component, unless it is `".."`. -/
def pathFileName (p : FsPath) : Option String :=
  match p.getLast? with
  | none => none
  | some s => if s = ".." then none else some s

/-- `PathBuf::set_file_name`. -/
def pathSetFileName (p : FsPath) (n : String) : FsPath :=
  match pathFileName p with
  | some _ => p.dropLast ++ [n]
  | none => p ++ [n]

/-- Split a character list at its last `'.'`: `(stem, some ext)` when a dot
exists, `(cs, none)` otherwise. -/
def breakLastDot : List Char → List Char × Option (List Char)
  | [] => ([], none)
  | c :: rest =>
    match breakLastDot rest with
    | (s, some e) => (c :: s, some e)
    | (_, none) => if c = '.' then ([], some rest) else (c :: rest, none)

/-- `Path::extension` applied to a file name: the portion after the last
`'.'`, unless there is no dot or the portion before the last dot is empty
(leading-dot files such as `.bashrc` have no extension). -/
def fnameExtension (f : String) : Option String :=
  match breakLastDot f.toList with
  | (_, none) => none
  | (s, some e) => if s = [] then none else some (String.mk e)

/-- `Path::file_stem` applied to a file name. -/
def fnameStem (f : String) : String :=
  match breakLastDot f.toList with
  | (_, none) => f
  | (s, some _) => if s = [] then f else String.mk s

def pathExtension (p : FsPath) : Option String :=
  (pathFileName p).bind fnameExtension

/-- `PathBuf::set_extension e` (for nonempty `e`): replace the file name by
`stem.e`; no effect when the path has no file name. -/
def pathSetExtension (p : FsPath) (e : String) : FsPath :=
  match pathFileName p with
  | none => p
  | some f => pathSetFileName p (fnameStem f ++ "." ++ e)

/-- `Path::parent` (for the relative paths built here): drop the last
component; `none` for the empty path. -/
def pathParent (p : FsPath) : Option FsPath :=
  match p with
  | [] => none
  | _ => some p.dropLast

/-- `pathdiff::diff_paths target base` for two relative component paths:
strip the common prefix, then one `".."` per remaining base component
followed by the remaining target components. -/
def diffPaths : FsPath → FsPath → FsPath
  | t, [] => t
  | [], b => List.replicate b.length ".."
  | t :: ts, b :: bs =>
    if t = b then diffPaths ts bs
    else List.replicate (b :: bs).length ".." ++ t :: ts

/-- `Mirror::to_posix_relative`: the relative path joined with `'/'`
(src/main.rs lines 116-123). -/
def to_posix_relative (target base : FsPath) : String :=
  strJoinSlash (diffPaths target base)

/-! ## `path_for_url` (src/main.rs lines 49-114) -/

/-- Rust `q.chars().map(|c| if c.is_ascii_alphanumeric() { c } else { '_' })`
followed by `truncate(32)` (src/main.rs lines 96-102). -/
def sanitizeQuery (q : String) : String :=
  String.mk ((q.toList.map fun c => if c.isAlphanum then c else '_').take 32)

/-- Rust `str::rsplit_once('.')` on a file name: split at the last `'.'`. -/
def rsplitOnceDot (f : String) : String × Option String :=
  match breakLastDot f.toList with
  | (_, none) => (f, none)
  | (s, some e) => (String.mk s, some (String.mk e))

/-- The shared-prefix index of `path_for_url` (src/main.rs lines 70-76):
advance while both lists still have a later element and the current
segments agree. -/
def walkIdx : List String → List String → Nat
  | b :: bs, r :: rs =>
    if bs ≠ [] ∧ rs ≠ [] ∧ b = r then walkIdx bs rs + 1 else 0
  | _, _ => 0

/-- The URL-path segments the code compares against the master components:
`url.path().trim_start_matches('/').split('/')` (src/main.rs lines 58-62). -/
def relSegsOfPath (p : String) : List String :=
  strSplitSlash (String.mk (p.toList.dropWhile (· = '/')))

def urlRelSegs (u : Url) : List String := relSegsOfPath u.path

/-- The query-free part of the `path_for_url` computation (src/main.rs
lines 58-86): relative difference against the master components, join
under the output directory, and the forced `.m3u8` extension for
extension-less manifests. Depends on the URL only through its path
string. -/
def baseLocalPath (master : List String) (outDir : FsPath) (p : String)
    (isManifest : Bool) : FsPath :=
  let rel := relSegsOfPath p
  let idx := walkIdx master rel
  let relParts := strJoinSlash (rel.drop idx)
  let lp0 := pathJoin outDir relParts
  if isManifest ∧ (pathExtension lp0).isNone
  then pathSetExtension lp0 "m3u8" else lp0

/-- The collision-safe file name spliced in for URLs with a query string
(src/main.rs lines 90-107): `stem__q_<safe>[.ext]`. -/
def queryName (fname : String) (q : String) : String :=
  let pr := rsplitOnceDot fname
  let safe := sanitizeQuery q
  match pr.2 with
  | some e => pr.1 ++ "__q_" ++ safe ++ "." ++ e
  | none => pr.1 ++ "__q_" ++ safe

/-- The cache-miss body of `path_for_url` (src/main.rs lines 58-111): the
path actually computed for a URL from the master components and output
directory. -/
def computePath (master : List String) (outDir : FsPath) (u : Url)
    (isManifest : Bool) : FsPath :=
  let lp1 := baseLocalPath master outDir u.path isManifest
  match u.query with
  | none => lp1
  | some q => pathSetFileName lp1 (queryName ((pathFileName lp1).getD "") q)

/-- Association-list lookup modelling `HashMap::get` on `url_to_path`. -/
def cacheLookup : List (Url × FsPath) → Url → Option FsPath
  | [], _ => none
  | (k, v) :: rest, u => if k = u then some v else cacheLookup rest u

/-- `Mirror::path_for_url` (src/main.rs lines 53-114): return the cached
path if present, otherwise compute, cache and return it. The cache is the
`url_to_path` map; note it is keyed on the URL alone. -/
def path_for_url (master : List String) (outDir : FsPath)
    (cache : List (Url × FsPath)) (u : Url) (isManifest : Bool) :
    FsPath × List (Url × FsPath) :=
  match cacheLookup cache u with
  | some p => (p, cache)
  | none =>
    let p := computePath master outDir u isManifest
    (p, (u, p) :: cache)

/-! ## ISO-8601 duration parser (src/main.rs lines 488-526)

`f64` is modelled as `ℚ`; the digit/dot literals the parser accepts are
decimal fractions, which ℚ represents exactly. -/

/-- Value of a digit list (`"30"` ↦ 30). -/
def digitsVal (cs : List Char) : ℕ :=
  cs.foldl (fun acc c => acc * 10 + (c.toNat - '0'.toNat)) 0

/-- Rust `str::parse::<f64>()` restricted to the digit/dot strings the
duration scanner produces: an optional single `'.'` splitting integer and
fractional digits, at least one character, no second dot. -/
def parseDecimal (cs : List Char) : Option ℚ :=
  match chSplit '.' cs with
  | [i] =>
    if i ≠ [] ∧ i.all Char.isDigit then some (digitsVal i) else none
  | [i, f] =>
    if (i ++ f) ≠ [] ∧ (i ++ f).all Char.isDigit then
      some ((digitsVal i : ℚ) + (digitsVal f : ℚ) / (10 : ℚ) ^ f.length)
    else none
  | _ => none

/-- One pass of the `while !rest.is_empty()` loop of
`parse_iso8601_duration_seconds`; `fuel` bounds the iteration count and is
instantiated with the remaining length, which strictly decreases each
round. -/
def durLoop : Nat → List Char → ℚ → ℚ → ℚ → Option ℚ
  | _, [], hours, mins, secs => some (hours * 3600 + mins * 60 + secs)
  | 0, _ :: _, hours, mins, secs => some (hours * 3600 + mins * 60 + secs)
  | fuel + 1, rest@(_ :: _), hours, mins, secs =>
    let num := rest.takeWhile fun c => c.isDigit ∨ c = '.'
    let tail := rest.dropWhile fun c => c.isDigit ∨ c = '.'
    if num = [] then some (hours * 3600 + mins * 60 + secs)
    else
      match tail with
      | [] => some (hours * 3600 + mins * 60 + secs)
      | u :: rest' =>
        match parseDecimal num with
        | none => none
        | some v =>
          if u = 'H' then durLoop fuel rest' v mins secs
          else if u = 'M' then durLoop fuel rest' hours v secs
          else if u = 'S' then durLoop fuel rest' hours mins v
          else none

/-- `parse_iso8601_duration_seconds` (src/main.rs lines 489-526). -/
def parse_iso8601_duration_seconds (s : String) : Option ℚ :=
  if strStartsWith s "PT" then
    let rest := s.toList.drop 2
    durLoop rest.length rest 0 0 0
  else none

/-! ## u64 attribute parsing -/

/-- Rust `str::parse::<u64>()`: optional leading `'+'`, at least one digit,
value below `2^64`. -/
def parseU64 (s : String) : Option ℕ :=
  let cs := s.toList
  let cs := if cs.head? = some '+' then cs.tail else cs
  if cs ≠ [] ∧ cs.all Char.isDigit then
    let n := digitsVal cs
    if n < 2 ^ 64 then some n else none
  else none

/-! ## XML model (roxmltree collaborator)

`roxmltree::Document::parse` is an external dependency; parsed documents
are modelled as this tree, and parsing enters the mirror model as a
parameter `parseXml : String → Option Xml` returning the root element. -/

inductive Xml where
  | elem (name : String) (attrs : List (String × String)) (children : List Xml)
  | text (s : String)

def Xml.isElem : Xml → Bool
  | .elem _ _ _ => true
  | .text _ => false

def Xml.name : Xml → String
  | .elem n _ _ => n
  | .text _ => ""

def Xml.children : Xml → List Xml
  | .elem _ _ cs => cs
  | .text _ => []

/-- `Node::attribute`: value of the first attribute with the given name. -/
def Xml.attr (x : Xml) (key : String) : Option String :=
  match x with
  | .elem _ attrs _ => (attrs.find? (fun a => a.1 = key)).map Prod.snd
  | .text _ => none

/-- `roxmltree::Node::text`: for an element, the value of its first child
when that child is a text node. -/
def Xml.nodeText : Xml → Option String
  | .text s => some s
  | .elem _ _ cs =>
    match cs.head? with
    | some (.text s) => some s
    | _ => none

/-- `first_child_text` (src/main.rs lines 474-480). -/
def first_child_text (node : Xml) (name : String) : Option String :=
  (node.children.find? fun n => n.isElem ∧ n.name = name).bind Xml.nodeText

/-- `first_child_element` (src/main.rs lines 482-486). -/
def first_child_element (node : Xml) (name : String) : Option Xml :=
  node.children.find? fun n => n.isElem ∧ n.name = name

/-- The element children with a given tag name
(`children().filter(|n| n.is_element() && n.tag_name().name() == name)`). -/
def childElems (node : Xml) (name : String) : List Xml :=
  node.children.filter fun n => n.isElem ∧ n.name = name

/-! ## Segment-range derivation (src/main.rs lines 447-459) -/

/-- The `end_number` computation of `handle_segment_template`: the explicit
`endNumber` attribute if present; otherwise, when both `duration` (timescale
units) and the MPD presentation duration (seconds) are known,
`start_number + ceil(total_secs / (duration / timescale)) - 1`; otherwise
`none` (media segments skipped). `f64` arithmetic is modelled as exact `ℚ`
arithmetic; the `as u64` cast saturates negatives to 0 like Rust. -/
def derivedEndNumber (timescale : ℕ) (durationUnits : Option ℕ)
    (startNumber : ℕ) (endAttr : Option ℕ) (mpdDur : Option ℚ) : Option ℕ :=
  match endAttr with
  | some en => some en
  | none =>
    match durationUnits, mpdDur with
    | some du, some total =>
      let segSecs : ℚ := (du : ℚ) / (timescale : ℚ)
      let count := (Int.ceil (total / segSecs)).toNat
      some (startNumber + count - 1)
    | _, _ => none

/-- The list of segment indices enumerated by `for num in start..=end`. -/
def segmentRange (startNumber endNumber : ℕ) : List ℕ :=
  List.range' startNumber (endNumber + 1 - startNumber)

/-! ## The mirror crawl (struct `Mirror`, src/main.rs lines 25-471)

The `Mirror` struct's mutable state is threaded explicitly; the HTTP
client and `roxmltree` are collaborators supplied in the context.
Each routine returns the new state and a success flag (`false` models a
propagated `Err`); `fetchLog` records every `GET` issued, in order, and
`files` records every file written, in order. -/

structure MCtx where
  fetch : Url → Option String
  parseXml : String → Option Xml
  master : List String
  outDir : FsPath

structure MSt where
  visited : List Url
  cache : List (Url × FsPath)
  fetchLog : List Url
  files : List (FsPath × String)
deriving DecidableEq, Repr

/-- `Mirror::find_uri_attr` (src/main.rs lines 125-132): the half-open
index range of the value between `URI="` and the next `"`. -/
def find_uri_attr (line : String) : Option (Nat × Nat) :=
  match chFind ['U', 'R', 'I', '=', '"'] line.toList with
  | none => none
  | some i =>
    let startIdx := i + 5
    match List.findIdx? (· = '"') (line.toList.drop startIdx) with
    | none => none
    | some e => some (startIdx, startIdx + e)

/-- `Mirror::mirror_binary` (src/main.rs lines 134-161): skip if visited,
else mark visited, resolve the local path, fetch, write. -/
def mirror_binary (ctx : MCtx) (st : MSt) (url : Url) : MSt × Bool :=
  if url ∈ st.visited then (st, true)
  else
    let st1 : MSt := { st with visited := url :: st.visited }
    let pr := path_for_url ctx.master ctx.outDir st1.cache url false
    let st2 : MSt := { st1 with cache := pr.2 }
    let st3 : MSt := { st2 with fetchLog := st2.fetchLog ++ [url] }
    match ctx.fetch url with
    | none => (st3, false)
    | some bytes => ({ st3 with files := st3.files ++ [(pr.1, bytes)] }, true)

/-- `child_url.path().to_ascii_lowercase().ends_with(".m3u8")`
(src/main.rs lines 225, 259). -/
def isManifestUrl (u : Url) : Bool :=
  strEndsWith (strAsciiLower u.path) ".m3u8"

/-- The `.orig` sibling path of a manifest (src/main.rs lines 197-202,
306-311). -/
def origPathFor (lp : FsPath) (fallback : String) : FsPath :=
  match pathFileName lp with
  | some f => pathSetFileName lp (f ++ ".orig")
  | none => pathSetFileName lp fallback

/-- Interleave lines with `'\n'` (`output_lines.join("\n")`). -/
def joinNewline (l : List String) : String :=
  String.mk (chIntercalate '\n' (l.map String.toList))

/-- The child-reference handling shared by both line shapes of
`mirror_manifest`'s loop (src/main.rs lines 221-234 and 255-268): resolve
the URI against the manifest URL, classify by the `.m3u8` extension,
recursively mirror (via `recM` for sub-manifests), and compute the POSIX
relative path from the manifest's local directory to the child's local
path. Returns (relative path, new state, success flag); the string is
meaningless on failure. -/
def childStep (ctx : MCtx) (recM : MSt → Url → MSt × Bool) (u : Url)
    (localDir : FsPath) (st : MSt) (uriVal : String) :
    String × MSt × Bool :=
  let childUrl := urlJoin u uriVal
  let isMan := isManifestUrl childUrl
  let r := if isMan then recM st childUrl else mirror_binary ctx st childUrl
  if r.2 = false then ("", r.1, false)
  else
    let pr := path_for_url ctx.master ctx.outDir r.1.cache childUrl isMan
    (to_posix_relative pr.1 localDir, { r.1 with cache := pr.2 }, true)

/-- The body of `mirror_manifest`'s per-line loop (src/main.rs lines
213-270), parameterized by the recursive manifest-mirroring call `recM`.
Returns the rewritten line, the new state and the success flag. -/
def processLine (ctx : MCtx) (recM : MSt → Url → MSt × Bool)
    (u : Url) (localDir : FsPath) (st : MSt) (line : String) :
    String × MSt × Bool :=
  let trimmed := strTrim line
  if strStartsWith trimmed "#" then
    match find_uri_attr line with
    | some se =>
      let cs := childStep ctx recM u localDir st (strDrop (strTake line se.2) se.1)
      if cs.2.2 = false then (line, cs.2.1, false)
      else (strTake line se.1 ++ cs.1 ++ strDrop line se.2, cs.2.1, true)
    | none => (line, st, true)
  else if trimmed = "" then (line, st, true)
  else
    let cs := childStep ctx recM u localDir st trimmed
    if cs.2.2 = false then (line, cs.2.1, false)
    else (cs.1, cs.2.1, true)

/-- The `for line in text.lines()` loop: run `f` over each line, collecting
rewritten lines, aborting on the first failure (`?` propagation). -/
def foldLines (f : MSt → String → String × MSt × Bool) :
    List String → MSt → List String × MSt × Bool
  | [], st => ([], st, true)
  | l :: ls, st =>
    let r := f st l
    if r.2.2 = false then ([], r.2.1, false)
    else
      let rest := foldLines f ls r.2.1
      (r.1 :: rest.1, rest.2.1, rest.2.2)

/-- `Mirror::mirror_manifest` (src/main.rs lines 163-277), with a fuel
bound on the recursion depth (the Rust recursion is bounded by the finite
set of reachable URLs; exhausted fuel is modelled as a failure). -/
def mirror_manifest (ctx : MCtx) : Nat → MSt → Url → MSt × Bool
  | 0 => fun st _ => (st, false)
  | fuel + 1 => fun st url =>
    if url ∈ st.visited then (st, true)
    else
      let st1 : MSt := { st with visited := url :: st.visited }
      let pr := path_for_url ctx.master ctx.outDir st1.cache url true
      let localPath := pr.1
      let st2 : MSt := { st1 with cache := pr.2 }
      let st3 : MSt := { st2 with fetchLog := st2.fetchLog ++ [url] }
      match ctx.fetch url with
      | none => (st3, false)
      | some text =>
        if strStartsWith (strTrimStart text) "#EXTM3U" = false then
          mirror_binary ctx st3 url
        else
          let origPath := origPathFor localPath "manifest.m3u8.orig"
          let st4 : MSt := { st3 with files := st3.files ++ [(origPath, text)] }
          match pathParent localPath with
          | none => (st4, false)
          | some localDir =>
            let r := foldLines
              (processLine ctx (mirror_manifest ctx fuel) url localDir)
              (linesRust text) st4
            if r.2.2 = false then (r.2.1, false)
            else
              ({ r.2.1 with
                  files := r.2.1.files ++ [(localPath, joinNewline r.1 ++ "\n")] },
               true)

/-! ## The DASH walk (src/main.rs lines 279-471) -/

/-- The per-representation scope the walk computes: representation id,
effective BaseURL, whether that BaseURL is a direct file reference, and the
effective SegmentTemplate. -/
structure RepScope where
  id : String
  base : Url
  isFile : Bool
  template : Option Xml

/-- The BaseURL narrowing performed at the Period and AdaptationSet levels
(src/main.rs lines 339-345, 352-358): join the declared `BaseURL` child
onto the parent scope if present, else inherit the parent scope. -/
def scopedBase (parent : Url) (node : Xml) : Url :=
  match first_child_text node "BaseURL" with
  | some b => urlJoin parent (strTrim b)
  | none => parent

/-- The Representation-level BaseURL handling (src/main.rs lines 372-382):
also records whether the declared BaseURL looks like a direct file
reference (does not end in `/`). -/
def repBaseFile (parent : Url) (rep : Xml) : Url × Bool :=
  match first_child_text rep "BaseURL" with
  | some b => (urlJoin parent (strTrim b), strEndsWith (strTrimEnd b) "/" = false)
  | none => (parent, false)

/-- `first_child_element(&rep, "SegmentTemplate").or(aset_st)`
(src/main.rs line 385). -/
def repTemplate (asetSt : Option Xml) (rep : Xml) : Option Xml :=
  (first_child_element rep "SegmentTemplate").or asetSt

/-- The flattened Period → AdaptationSet → Representation walk of
`mirror_mpd` (src/main.rs lines 334-405): the scopes in depth-first order.
Representations without an `id` attribute are skipped (`continue`). -/
def mpdRepScopes (mpdUrl : Url) (root : Xml) : List RepScope :=
  (childElems root "Period").flatMap fun period =>
    let periodBase := scopedBase mpdUrl period
    (childElems period "AdaptationSet").flatMap fun aset =>
      let asetBase := scopedBase periodBase aset
      let asetSt := first_child_element aset "SegmentTemplate"
      (childElems aset "Representation").filterMap fun rep =>
        match rep.attr "id" with
        | none => none
        | some rid =>
          let rb := repBaseFile asetBase rep
          some { id := rid, base := rb.1, isFile := rb.2,
                 template := repTemplate asetSt rep }

/-- Run `f` over a list, aborting on the first failure (the effectful
`for` loops with `?` propagation). -/
def forEachM {α : Type} (f : MSt → α → MSt × Bool) :
    List α → MSt → MSt × Bool
  | [], st => (st, true)
  | x :: xs, st =>
    let r := f st x
    if r.2 = false then (r.1, false) else forEachM f xs r.1

/-- `Mirror::handle_segment_template` (src/main.rs lines 411-471). -/
def handle_segment_template (ctx : MCtx) (st : MSt) (baseUrl : Url)
    (representationId : String) (node : Xml) (mpdDur : Option ℚ) :
    MSt × Bool :=
  let r1 := match node.attr "initialization" with
    | some tmpl =>
      let path := strReplace tmpl "$RepresentationID$" representationId
      mirror_binary ctx st (urlJoin baseUrl (strTrim path))
    | none => (st, true)
  if r1.2 = false then (r1.1, false)
  else
    match node.attr "media" with
    | none => (r1.1, true)
    | some media =>
      if media = "" then (r1.1, true)
      else
        let timescale := ((node.attr "timescale").bind parseU64).getD 1
        let durationUnits := (node.attr "duration").bind parseU64
        let startNumber := ((node.attr "startNumber").bind parseU64).getD 1
        let endAttr := (node.attr "endNumber").bind parseU64
        match derivedEndNumber timescale durationUnits startNumber endAttr
            mpdDur with
        | none => (r1.1, true)
        | some endNumber =>
          forEachM (fun st2 num =>
              let p1 := strReplace media "$RepresentationID$" representationId
              let p2 := strReplace p1 "$Number$" (toString num)
              mirror_binary ctx st2 (urlJoin baseUrl (strTrim p2)))
            (segmentRange startNumber endNumber) r1.1

/-- The per-representation actions of `mirror_mpd`'s walk (src/main.rs
lines 387-403): expand the effective SegmentTemplate if any, then mirror a
file-like Representation BaseURL as a standalone binary. -/
def perRep (ctx : MCtx) (mpdDur : Option ℚ) (st : MSt) (scope : RepScope) :
    MSt × Bool :=
  let r1 := match scope.template with
    | some t => handle_segment_template ctx st scope.base scope.id t mpdDur
    | none => (st, true)
  if r1.2 = false then (r1.1, false)
  else if scope.isFile then mirror_binary ctx r1.1 scope.base
  else (r1.1, true)

/-- `Mirror::mirror_mpd` (src/main.rs lines 279-409). -/
def mirror_mpd (ctx : MCtx) (st : MSt) (url : Url) : MSt × Bool :=
  if url ∈ st.visited then (st, true)
  else
    let st1 : MSt := { st with visited := url :: st.visited }
    let pr := path_for_url ctx.master ctx.outDir st1.cache url true
    let localPath := pr.1
    let st2 : MSt := { st1 with cache := pr.2 }
    let st3 : MSt := { st2 with fetchLog := st2.fetchLog ++ [url] }
    match ctx.fetch url with
    | none => (st3, false)
    | some text =>
      let origPath := origPathFor localPath "manifest.mpd.orig"
      let st4 : MSt :=
        { st3 with files := st3.files ++ [(origPath, text), (localPath, text)] }
      match ctx.parseXml text with
      | none => (st4, false)
      | some root =>
        if root.name ≠ "MPD" then mirror_binary ctx st4 url
        else
          let mpdDur := (root.attr "mediaPresentationDuration").bind
            parse_iso8601_duration_seconds
          forEachM (perRep ctx mpdDur) (mpdRepScopes url root) st4

/-! # Supporting lemmas -/

theorem strDataEq {a b : String} (h : a.data = b.data) : a = b :=
  congrArg String.mk h

theorem cacheLookup_cons_self (c : List (Url × FsPath)) (u : Url) (p : FsPath) :
    cacheLookup ((u, p) :: c) u = some p := by simp [cacheLookup]

theorem path_for_url_stable (master : List String) (outDir : FsPath)
    (cache : List (Url × FsPath)) (u : Url) (k : Bool) :
    path_for_url master outDir (path_for_url master outDir cache u k).2 u k =
      path_for_url master outDir cache u k := by
  unfold path_for_url
  cases h : cacheLookup cache u with
  | some p => simp [h]
  | none => simp [h, cacheLookup_cons_self]

theorem breakLastDot_none : ∀ (cs s : List Char),
    breakLastDot cs = (s, none) → s = cs := by
  intro cs
  induction cs with
  | nil =>
    intro s h
    simp only [breakLastDot, Prod.mk.injEq] at h
    exact h.1.symm
  | cons c rest ih =>
    intro s h
    simp only [breakLastDot] at h
    rcases hbd : breakLastDot rest with ⟨s', e'⟩
    rw [hbd] at h
    cases e' with
    | some e'' => simp at h
    | none =>
      by_cases hc : c = '.'
      · simp [hc] at h
      · simp only [if_neg hc, Prod.mk.injEq] at h
        exact h.1.symm

theorem breakLastDot_some : ∀ (cs s e : List Char),
    breakLastDot cs = (s, some e) → cs = s ++ '.' :: e := by
  intro cs
  induction cs with
  | nil => intro s e h; simp [breakLastDot] at h
  | cons c rest ih =>
    intro s e h
    simp only [breakLastDot] at h
    rcases hbd : breakLastDot rest with ⟨s', e'⟩
    rw [hbd] at h
    cases e' with
    | some e'' =>
      simp only [Prod.mk.injEq, Option.some.injEq] at h
      have := ih s' e'' hbd
      rw [← h.2, ← h.1, this]
      simp
    | none =>
      by_cases hc : c = '.'
      · subst hc
        rw [if_pos rfl] at h
        simp only [Prod.mk.injEq, Option.some.injEq] at h
        rw [← h.1, ← h.2]
        simp
      · simp [hc] at h

theorem rsplitOnceDot_none (f s : String) (h : rsplitOnceDot f = (s, none)) :
    s = f := by
  unfold rsplitOnceDot at h
  rcases hbd : breakLastDot f.toList with ⟨s', e'⟩
  rw [hbd] at h
  cases e' with
  | none => simp only [Prod.mk.injEq] at h; exact h.1.symm
  | some e'' => simp at h

theorem rsplitOnceDot_some (f s e : String)
    (h : rsplitOnceDot f = (s, some e)) : f.data = s.data ++ '.' :: e.data := by
  unfold rsplitOnceDot at h
  rcases hbd : breakLastDot f.toList with ⟨s', e'⟩
  rw [hbd] at h
  cases e' with
  | none => simp at h
  | some e'' =>
    simp only [Prod.mk.injEq, Option.some.injEq] at h
    have hsplit := breakLastDot_some f.toList s' e'' hbd
    rw [← h.1, ← h.2]
    exact hsplit

theorem queryName_length (f q : String) :
    (queryName f q).length = f.length + 4 + (sanitizeQuery q).length := by
  unfold queryName
  rcases hr : rsplitOnceDot f with ⟨s, eopt⟩
  cases eopt with
  | none =>
    have hs := rsplitOnceDot_none f s hr
    subst hs
    simp only [String.length_append]
    have h4 : ("__q_" : String).length = 4 := rfl
    omega
  | some e =>
    have hfe := rsplitOnceDot_some f s e hr
    have hlen : f.length = s.length + 1 + e.length := by
      have h2 := congrArg List.length hfe
      simp only [List.length_append, List.length_cons] at h2
      have ha : f.data.length = f.length := rfl
      have hb : s.data.length = s.length := rfl
      have hc2 : e.data.length = e.length := rfl
      omega
    simp only [String.length_append]
    have h4 : ("__q_" : String).length = 4 := rfl
    have h1 : ("." : String).length = 1 := rfl
    omega

theorem queryName_inj (f q1 q2 : String)
    (h : queryName f q1 = queryName f q2) :
    sanitizeQuery q1 = sanitizeQuery q2 := by
  unfold queryName at h
  rcases hr : rsplitOnceDot f with ⟨s, eopt⟩
  rw [hr] at h
  cases eopt with
  | none =>
    have hd := congrArg String.data h
    simp only [String.data_append, List.append_assoc] at hd
    exact strDataEq (List.append_cancel_left (List.append_cancel_left hd))
  | some e =>
    have hd := congrArg String.data h
    simp only [String.data_append, List.append_assoc] at hd
    have := List.append_cancel_left (List.append_cancel_left hd)
    exact strDataEq (List.append_cancel_right this)

theorem pathFileName_some (p : FsPath) (f : String)
    (h : pathFileName p = some f) : p.getLast? = some f ∧ f ≠ ".." := by
  unfold pathFileName at h
  rcases hl : p.getLast? with _ | l
  · rw [hl] at h; simp at h
  · rw [hl] at h
    by_cases hdd : l = ".."
    · simp [hdd] at h
    · simp only [if_neg hdd, Option.some.injEq] at h
      subst h
      exact ⟨rfl, hdd⟩

theorem pathSetFileName_some (p : FsPath) (f n : String)
    (h : pathFileName p = some f) :
    pathSetFileName p n = p.dropLast ++ [n] := by
  unfold pathSetFileName; rw [h]

theorem pathSetFileName_none (p : FsPath) (n : String)
    (h : pathFileName p = none) :
    pathSetFileName p n = p ++ [n] := by
  unfold pathSetFileName; rw [h]

/-- Splicing the query name always changes the path: the new file name is
strictly longer than the one it replaces. -/
theorem setFileName_queryName_ne (B : FsPath) (q : String) :
    pathSetFileName B (queryName ((pathFileName B).getD "") q) ≠ B := by
  rcases hf : pathFileName B with _ | f
  · rw [pathSetFileName_none B _ hf]
    intro h
    have := congrArg List.length h
    simp at this
  · simp only [hf, Option.getD_some]
    rw [pathSetFileName_some B f _ hf]
    intro h
    have hlast := pathFileName_some B f hf
    have hgl : (B.dropLast ++ [queryName f q]).getLast? = some (queryName f q) := by
      simp
    rw [h, hlast.1] at hgl
    have heq : f = queryName f q := by simpa using hgl
    have hlen := congrArg String.length heq
    rw [queryName_length] at hlen
    omega

theorem setFileName_queryName_inj (B : FsPath) (fn q1 q2 : String)
    (h : pathSetFileName B (queryName fn q1) = pathSetFileName B (queryName fn q2)) :
    sanitizeQuery q1 = sanitizeQuery q2 := by
  rcases hf : pathFileName B with _ | f
  · rw [pathSetFileName_none B _ hf, pathSetFileName_none B _ hf] at h
    have := List.append_cancel_left h
    exact queryName_inj fn q1 q2 (by simpa using this)
  · rw [pathSetFileName_some B f _ hf, pathSetFileName_some B f _ hf] at h
    have := List.append_cancel_left h
    exact queryName_inj fn q1 q2 (by simpa using this)

/-! # Claim theorems -/

/-- C8: `path_for_url` is deterministic and memoized: for equal URLs and
any kind the results agree, and a repeated call for the same URL returns
the first call's cached value with the cache left unchanged (no
recomputation), so the mapping is immutable for the run. -/
theorem path_for_url_deterministic_memoized :
    (∀ (master : List String) (outDir : FsPath) (cache : List (Url × FsPath))
        (u1 u2 : Url) (k : Bool), u1 = u2 →
        path_for_url master outDir cache u1 k =
          path_for_url master outDir cache u2 k)
    ∧ (∀ (master : List String) (outDir : FsPath)
        (cache : List (Url × FsPath)) (u : Url) (k : Bool),
        path_for_url master outDir (path_for_url master outDir cache u k).2 u k =
          path_for_url master outDir cache u k) :=
  ⟨fun _ _ _ _ _ _ h => by rw [h],
   fun m o c u k => path_for_url_stable m o c u k⟩

theorem path_for_url_deterministic_memoized_witness :
    path_for_url ["a", "m.m3u8"] ["o"] [] ⟨"https", "h", "/a/x.ts", none⟩ false =
      path_for_url ["a", "m.m3u8"] ["o"] [] ⟨"https", "h", "/a/x.ts", none⟩ false :=
  path_for_url_deterministic_memoized.1 ["a", "m.m3u8"] ["o"] [] _ _ false rfl

/-- C10: the `url_to_path` cache is keyed on the URL alone, ignoring the
`is_manifest` flag: after a first call with flag `k1`, every later call
with any flag `k2` returns the `k1`-result. Concretely, the extension-less
URL `/a/seg` first mapped with `is_manifest = false` gets `o/seg`, a later
call with `is_manifest = true` still returns `o/seg`, although a fresh
computation under `true` would have forced `o/seg.m3u8`. -/
theorem path_cache_ignores_manifest_flag :
    (∀ (master : List String) (outDir : FsPath) (cache : List (Url × FsPath))
        (u : Url) (k1 k2 : Bool),
        (path_for_url master outDir
            (path_for_url master outDir cache u k1).2 u k2).1 =
          (path_for_url master outDir cache u k1).1)
    ∧ ((path_for_url ["a", "m.m3u8"] ["o"] []
          ⟨"https", "h", "/a/seg", none⟩ false).1 = ["o", "seg"]
      ∧ (path_for_url ["a", "m.m3u8"] ["o"]
          (path_for_url ["a", "m.m3u8"] ["o"] []
            ⟨"https", "h", "/a/seg", none⟩ false).2
          ⟨"https", "h", "/a/seg", none⟩ true).1 = ["o", "seg"]
      ∧ computePath ["a", "m.m3u8"] ["o"] ⟨"https", "h", "/a/seg", none⟩ true
          = ["o", "seg.m3u8"]) := by
  constructor
  · intro m o c u k1 k2
    unfold path_for_url
    cases h : cacheLookup c u with
    | some p => simp [h]
    | none => simp [h, cacheLookup_cons_self]
  · exact ⟨by decide, by decide, by decide⟩

/-- C2 counterexample: the two distinct URLs `/a/f.ts?a.b` and
`/a/f.ts?a_b` differ only in their query string, yet `path_for_url`'s
computation maps both to the same local path, because both queries
transliterate to `a_b`. -/
theorem path_query_collision_counterexample :
    (⟨"https", "h", "/a/f.ts", some "a.b"⟩ : Url) ≠
        ⟨"https", "h", "/a/f.ts", some "a_b"⟩
    ∧ computePath ["a", "m.m3u8"] ["o"] ⟨"https", "h", "/a/f.ts", some "a.b"⟩ false =
        computePath ["a", "m.m3u8"] ["o"] ⟨"https", "h", "/a/f.ts", some "a_b"⟩ false :=
  ⟨by decide, by decide⟩

/-- C2 (amended): for URLs differing only in their query string the
computed local filenames differ whenever the transliterated,
32-character-truncated query keys differ (in particular whenever exactly
one of them carries a query); queries with equal sanitized keys collide.
The computed filename for each URL is stable across repeated calls. -/
theorem path_query_disambiguation :
    (∀ (master : List String) (outDir : FsPath) (u1 u2 : Url) (k : Bool),
        u1.path = u2.path →
        u1.query.map sanitizeQuery ≠ u2.query.map sanitizeQuery →
        computePath master outDir u1 k ≠ computePath master outDir u2 k)
    ∧ (∀ (master : List String) (outDir : FsPath)
        (cache : List (Url × FsPath)) (u : Url) (k : Bool),
        path_for_url master outDir (path_for_url master outDir cache u k).2 u k =
          path_for_url master outDir cache u k) := by
  constructor
  · intro m o u1 u2 k hp hq
    unfold computePath
    rw [hp]
    cases hq1 : u1.query with
    | none =>
      cases hq2 : u2.query with
      | none => rw [hq1, hq2] at hq; exact absurd rfl hq
      | some q2 => exact fun h => setFileName_queryName_ne _ q2 h.symm
    | some q1 =>
      cases hq2 : u2.query with
      | none => exact fun h => setFileName_queryName_ne _ q1 h
      | some q2 =>
        intro h
        apply hq
        rw [hq1, hq2]
        have hsq := setFileName_queryName_inj _ _ q1 q2 h
        simp [hsq]
  · exact fun m o c u k => path_for_url_stable m o c u k

theorem path_query_disambiguation_witness :
    computePath ["a", "m.m3u8"] ["o"] ⟨"https", "h", "/a/f.ts", some "tok=1"⟩ false ≠
      computePath ["a", "m.m3u8"] ["o"] ⟨"https", "h", "/a/f.ts", none⟩ false :=
  path_query_disambiguation.1 ["a", "m.m3u8"] ["o"] _ _ false rfl (by decide)

/-! ## C7: local paths and the output root -/

theorem strSplitSlash_joinSlash (l : List String) (hne : l ≠ [])
    (hs : ∀ s ∈ l, '/' ∉ s.data) : strSplitSlash (strJoinSlash l) = l := by
  unfold strSplitSlash strJoinSlash
  have h1 : (String.mk (chIntercalate '/' (l.map String.toList))).toList
      = chIntercalate '/' (l.map String.toList) := rfl
  rw [h1, chSplit_intercalate]
  · rw [List.map_map]
    exact List.map_id'' (fun x => rfl) l
  · simpa using hne
  · intro g hg
    obtain ⟨s, hsl, rfl⟩ := List.mem_map.mp hg
    exact hs s hsl

theorem relSegs_no_slash (p : String) :
    ∀ s ∈ relSegsOfPath p, '/' ∉ s.data := by
  intro s hs
  unfold relSegsOfPath strSplitSlash at hs
  obtain ⟨g, hg, rfl⟩ := List.mem_map.mp hs
  exact chSplit_no_sep '/' _ g hg

theorem relSegs_ne_nil (p : String) : relSegsOfPath p ≠ [] := by
  unfold relSegsOfPath strSplitSlash
  intro h
  exact chSplit_ne_nil '/' _ (List.map_eq_nil_iff.mp h)

theorem walkIdx_lt (b r : List String) (h : r ≠ []) : walkIdx b r < r.length := by
  induction r generalizing b with
  | nil => exact absurd rfl h
  | cons x rs ih =>
    cases b with
    | nil => simp [walkIdx]
    | cons y bs =>
      simp only [walkIdx, List.length_cons]
      split
      · next hcond =>
        have := ih bs hcond.2.1
        omega
      · omega

theorem pathJoin_joinSlash (outDir : FsPath) (l : List String) (hne : l ≠ [])
    (hs : ∀ s ∈ l, '/' ∉ s.data) :
    pathJoin outDir (strJoinSlash l) =
      outDir ++ l.filter (fun c => c ≠ "" ∧ c ≠ ".") := by
  unfold pathJoin
  rw [strSplitSlash_joinSlash l hne hs]

theorem pathSetFileName_suffix (outDir suffix : FsPath) (n : String)
    (hne : suffix ≠ []) :
    ∃ suffix2, pathSetFileName (outDir ++ suffix) n = outDir ++ suffix2 ∧
      suffix2 ≠ [] ∧ ∀ c ∈ suffix2, c ∈ suffix ∨ c = n := by
  have hfn : pathFileName (outDir ++ suffix) =
      (match suffix.getLast? with
       | none => none
       | some s => if s = ".." then none else some s) := by
    unfold pathFileName
    rw [List.getLast?_append_of_ne_nil _ hne]
  cases hl : suffix.getLast? with
  | none =>
    rw [List.getLast?_eq_none_iff] at hl
    exact absurd hl hne
  | some l =>
    rw [hl] at hfn
    dsimp only at hfn
    by_cases hdd : l = ".."
    · rw [if_pos hdd] at hfn
      refine ⟨suffix ++ [n], ?_, by simp, ?_⟩
      · rw [pathSetFileName_none _ _ hfn, List.append_assoc]
      · intro c hc
        rcases List.mem_append.mp hc with h | h
        · exact Or.inl h
        · simp only [List.mem_singleton] at h
          exact Or.inr h
    · rw [if_neg hdd] at hfn
      refine ⟨suffix.dropLast ++ [n], ?_, by simp, ?_⟩
      · rw [pathSetFileName_some _ l _ hfn,
          List.dropLast_append_of_ne_nil _ hne, List.append_assoc]
      · intro c hc
        rcases List.mem_append.mp hc with h | h
        · exact Or.inl (List.dropLast_subset _ h)
        · simp only [List.mem_singleton] at h
          exact Or.inr h

theorem pathSetExtension_suffix (outDir suffix : FsPath) (hne : suffix ≠ []) :
    ∃ suffix2, pathSetExtension (outDir ++ suffix) "m3u8" = outDir ++ suffix2 ∧
      suffix2 ≠ [] ∧ ∀ c ∈ suffix2, c ∈ suffix ∨ c ≠ ".." := by
  unfold pathSetExtension
  cases hfn : pathFileName (outDir ++ suffix) with
  | none => exact ⟨suffix, rfl, hne, fun c hc => Or.inl hc⟩
  | some f =>
    obtain ⟨suffix2, heq, hne2, hmem⟩ :=
      pathSetFileName_suffix outDir suffix (fnameStem f ++ "." ++ "m3u8") hne
    refine ⟨suffix2, heq, hne2, ?_⟩
    intro c hc
    rcases hmem c hc with h | h
    · exact Or.inl h
    · refine Or.inr ?_
      subst h
      intro hdd
      have hlen := congrArg String.length hdd
      rw [String.length_append, String.length_append] at hlen
      have h1 : ("." : String).length = 1 := rfl
      have h2 : ("m3u8" : String).length = 4 := rfl
      have h3 : (".." : String).length = 2 := rfl
      omega

/-- The query splice never produces a `".."` component. -/
theorem queryName_ne_dotdot (fn q : String) : queryName fn q ≠ ".." := by
  intro h
  have hlen := congrArg String.length h
  rw [queryName_length] at hlen
  have h3 : (".." : String).length = 2 := rfl
  omega

theorem baseLocalPath_suffix (m : List String) (o : FsPath) (p : String)
    (k : Bool)
    (hfil : ((relSegsOfPath p).drop (walkIdx m (relSegsOfPath p))).filter
        (fun c => c ≠ "" ∧ c ≠ ".") ≠ []) :
    ∃ suffix, baseLocalPath m o p k = o ++ suffix ∧ suffix ≠ [] ∧
      ∀ c ∈ suffix, c = ".." → c ∈ relSegsOfPath p := by
  have hrel_ne : relSegsOfPath p ≠ [] := relSegs_ne_nil p
  have hidx : walkIdx m (relSegsOfPath p) < (relSegsOfPath p).length :=
    walkIdx_lt m _ hrel_ne
  have hdrop_ne : (relSegsOfPath p).drop (walkIdx m (relSegsOfPath p)) ≠ [] := by
    rw [Ne, List.drop_eq_nil_iff]
    omega
  have hnoslash : ∀ s ∈ (relSegsOfPath p).drop (walkIdx m (relSegsOfPath p)),
      '/' ∉ s.data :=
    fun s hs => relSegs_no_slash p s (List.drop_subset _ _ hs)
  have hjoin := pathJoin_joinSlash o _ hdrop_ne hnoslash
  have hmem0 : ∀ c ∈ ((relSegsOfPath p).drop (walkIdx m (relSegsOfPath p))).filter
      (fun c => c ≠ "" ∧ c ≠ "."), c ∈ relSegsOfPath p := by
    intro c hc
    exact List.drop_subset _ _ (List.mem_of_mem_filter hc)
  unfold baseLocalPath
  dsimp only
  rw [hjoin]
  split
  · obtain ⟨s2, heq, hne2, hm2⟩ := pathSetExtension_suffix o _ hfil
    refine ⟨s2, heq, hne2, ?_⟩
    intro c hc hdd
    rcases hm2 c hc with h | h
    · exact hmem0 c (hdd ▸ h)
    · exact absurd hdd h
  · exact ⟨_, rfl, hfil, fun c hc hdd => hmem0 c hc⟩

/-- C7 counterexample: a URL whose path is `/` maps to a sibling of the
output root: with output directory `out` the computed manifest path is
`out.m3u8`, which does not lie under `out`. -/
theorem local_path_escape_counterexample :
    computePath ["master.m3u8"] ["out"] ⟨"https", "h", "/", none⟩ true = ["out.m3u8"]
    ∧ (["out"].isPrefixOf ["out.m3u8"]) = false :=
  ⟨by decide, by decide⟩

/-- C7 (amended): whenever the URL's path still has a nonempty normalized
segment after the common-prefix strip (every URL whose path is not just
slashes), the computed local path lies strictly under the output root, and
a `".."` component can appear in it only if the URL's own path segments
contain `".."` — the relative-difference computation only strips a common
prefix and never injects `..`. (A URL whose path is all slashes maps to
the output root itself, which the `.m3u8`/query renaming then turns into a
sibling of the root — the counterexample.) -/
theorem local_path_under_root :
    ∀ (master : List String) (outDir : FsPath) (u : Url) (k : Bool),
      ((urlRelSegs u).drop (walkIdx master (urlRelSegs u))).filter
          (fun c => c ≠ "" ∧ c ≠ ".") ≠ [] →
      ∃ suffix, computePath master outDir u k = outDir ++ suffix ∧ suffix ≠ [] ∧
        ∀ c ∈ suffix, c = ".." → c ∈ urlRelSegs u := by
  intro m o u k hfil
  obtain ⟨s1, heq1, hne1, hm1⟩ := baseLocalPath_suffix m o u.path k hfil
  unfold computePath
  rw [heq1]
  cases hq : u.query with
  | none => exact ⟨s1, rfl, hne1, hm1⟩
  | some q =>
    obtain ⟨s2, heq2, hne2, hm2⟩ :=
      pathSetFileName_suffix o s1
        (queryName ((pathFileName (o ++ s1)).getD "") q) hne1
    refine ⟨s2, heq2, hne2, ?_⟩
    intro c hc hdd
    rcases hm2 c hc with h | h
    · exact hm1 c h hdd
    · exfalso
      apply queryName_ne_dotdot ((pathFileName (o ++ s1)).getD "") q
      rw [← h]
      exact hdd

theorem local_path_under_root_witness :
    ∃ suffix, computePath ["a", "m.m3u8"] ["out"]
        ⟨"https", "h", "/a/sub/x.ts", none⟩ false = ["out"] ++ suffix ∧
      suffix ≠ [] ∧
      ∀ c ∈ suffix, c = ".." → c ∈ urlRelSegs ⟨"https", "h", "/a/sub/x.ts", none⟩ :=
  local_path_under_root ["a", "m.m3u8"] ["out"] _ false (by decide)

/-! ## C5: the ISO-8601 duration parser -/

theorem takeWhile_append_cons {α : Type} (p : α → Bool) (l1 : List α) (u : α)
    (l2 : List α) (h1 : ∀ c ∈ l1, p c = true) (hu : p u = false) :
    (l1 ++ u :: l2).takeWhile p = l1 := by
  induction l1 with
  | nil => simp [List.takeWhile_cons, hu]
  | cons c cs ih =>
    have hc := h1 c (List.mem_cons_self _ _)
    simp only [List.cons_append, List.takeWhile_cons, hc, if_true]
    rw [ih (fun x hx => h1 x (List.mem_cons_of_mem _ hx))]

theorem dropWhile_append_cons {α : Type} (p : α → Bool) (l1 : List α) (u : α)
    (l2 : List α) (h1 : ∀ c ∈ l1, p c = true) (hu : p u = false) :
    (l1 ++ u :: l2).dropWhile p = u :: l2 := by
  induction l1 with
  | nil => simp [List.dropWhile_cons, hu]
  | cons c cs ih =>
    have hc := h1 c (List.mem_cons_self _ _)
    simp only [List.cons_append, List.dropWhile_cons, hc, if_true]
    exact ih (fun x hx => h1 x (List.mem_cons_of_mem _ hx))

/-- A scanned number directly followed by a letter outside `{H, M, S}`
makes the duration loop fail, whatever came before or follows. -/
theorem durLoop_bad_unit (fuel : ℕ) (ds : List Char) (u : Char)
    (rest : List Char) (hrs mns scs : ℚ) (hne : ds ≠ [])
    (hds : ∀ c ∈ ds, (c.isDigit = true ∨ c = '.'))
    (hu : ¬(u.isDigit = true ∨ u = '.'))
    (hH : u ≠ 'H') (hM : u ≠ 'M') (hS : u ≠ 'S') :
    durLoop (fuel + 1) (ds ++ u :: rest) hrs mns scs = none := by
  cases ds with
  | nil => exact absurd rfl hne
  | cons d ds' =>
    have htake : ((d :: ds') ++ u :: rest).takeWhile
        (fun c => decide (c.isDigit = true ∨ c = '.')) = d :: ds' :=
      takeWhile_append_cons _ _ _ _
        (fun c hc => decide_eq_true (hds c hc)) (decide_eq_false hu)
    have hdrop : ((d :: ds') ++ u :: rest).dropWhile
        (fun c => decide (c.isDigit = true ∨ c = '.')) = u :: rest :=
      dropWhile_append_cons _ _ _ _
        (fun c hc => decide_eq_true (hds c hc)) (decide_eq_false hu)
    show durLoop (fuel + 1) (d :: (ds' ++ u :: rest)) hrs mns scs = none
    unfold durLoop
    simp only [List.cons_append] at htake hdrop
    rw [htake, hdrop]
    simp only [reduceCtorEq, if_false]
    cases parseDecimal (d :: ds') with
    | none => rfl
    | some v => simp [hH, hM, hS]

/-- One iteration of the duration loop on a valid digit/dot group followed
by a unit character: the group is scanned off and the loop dispatches on
the unit. -/
theorem durLoop_group_step (fuel : ℕ) (g : List Char) (unit : Char)
    (tail : List Char) (hrs mns scs v : ℚ) (hne : g ≠ [])
    (hg : ∀ c ∈ g, (c.isDigit = true ∨ c = '.'))
    (hu : ¬(unit.isDigit = true ∨ unit = '.'))
    (hv : parseDecimal g = some v) :
    durLoop (fuel + 1) (g ++ unit :: tail) hrs mns scs =
      if unit = 'H' then durLoop fuel tail v mns scs
      else if unit = 'M' then durLoop fuel tail hrs v scs
      else if unit = 'S' then durLoop fuel tail hrs mns v
      else none := by
  cases g with
  | nil => exact absurd rfl hne
  | cons d g' =>
    have htake : ((d :: g') ++ unit :: tail).takeWhile
        (fun c => decide (c.isDigit = true ∨ c = '.')) = d :: g' :=
      takeWhile_append_cons _ _ _ _
        (fun c hc => decide_eq_true (hg c hc)) (decide_eq_false hu)
    have hdrop : ((d :: g') ++ unit :: tail).dropWhile
        (fun c => decide (c.isDigit = true ∨ c = '.')) = unit :: tail :=
      dropWhile_append_cons _ _ _ _
        (fun c hc => decide_eq_true (hg c hc)) (decide_eq_false hu)
    show durLoop (fuel + 1) (d :: (g' ++ unit :: tail)) hrs mns scs = _
    simp only [List.cons_append] at htake hdrop
    rw [show (fuel + 1) = fuel.succ from rfl]
    simp only [durLoop, htake, hdrop, reduceCtorEq, if_false]
    rw [hv]

/-- Any number of validly scanned (group, unit ∈ {H,M,S}) pairs can
precede the offending group: the loop still returns `none`. -/
theorem durLoop_scan_bad (ds : List Char) (u : Char) (rest : List Char)
    (hne : ds ≠ []) (hds : ∀ c ∈ ds, (c.isDigit = true ∨ c = '.'))
    (hu : ¬(u.isDigit = true ∨ u = '.'))
    (hH : u ≠ 'H') (hM : u ≠ 'M') (hS : u ≠ 'S') :
    ∀ (pairs : List (List Char × Char)) (fuel : ℕ) (hrs mns scs : ℚ),
      (∀ p ∈ pairs, p.1 ≠ [] ∧ (∀ c ∈ p.1, (c.isDigit = true ∨ c = '.')) ∧
        (parseDecimal p.1).isSome = true ∧
        (p.2 = 'H' ∨ p.2 = 'M' ∨ p.2 = 'S')) →
      pairs.length ≤ fuel →
      durLoop (fuel + 1)
        (pairs.flatMap (fun p => p.1 ++ [p.2]) ++ ds ++ u :: rest)
        hrs mns scs = none := by
  intro pairs
  induction pairs with
  | nil =>
    intro fuel hrs mns scs _ _
    simpa using durLoop_bad_unit fuel ds u rest hrs mns scs hne hds hu hH hM hS
  | cons p ps ih =>
    intro fuel hrs mns scs hp hlen
    obtain ⟨hpne, hpg, hpv, hpu⟩ := hp p (List.mem_cons_self _ _)
    obtain ⟨v, hv⟩ := Option.isSome_iff_exists.mp hpv
    have hunot : ¬(p.2.isDigit = true ∨ p.2 = '.') := by
      rcases hpu with h | h | h <;> rw [h] <;> decide
    cases fuel with
    | zero => simp at hlen
    | succ f =>
      have harr : (p :: ps).flatMap (fun q => q.1 ++ [q.2]) ++ ds ++ u :: rest
          = p.1 ++ p.2 ::
              (ps.flatMap (fun q => q.1 ++ [q.2]) ++ ds ++ u :: rest) := by
        simp [List.flatMap_cons, List.append_assoc]
      have hps : ∀ q ∈ ps, q.1 ≠ [] ∧ (∀ c ∈ q.1, (c.isDigit = true ∨ c = '.'))
          ∧ (parseDecimal q.1).isSome = true ∧
          (q.2 = 'H' ∨ q.2 = 'M' ∨ q.2 = 'S') :=
        fun q hq => hp q (List.mem_cons_of_mem _ hq)
      have hlen2 : ps.length ≤ f := by
        simpa using hlen
      rw [harr, durLoop_group_step (f + 1) p.1 p.2 _ hrs mns scs v hpne hpg
        hunot hv]
      rcases hpu with h | h | h
      · rw [h, if_pos rfl]
        exact ih f v mns scs hps hlen2
      · rw [h, if_neg (by decide), if_pos rfl]
        exact ih f hrs v scs hps hlen2
      · rw [h, if_neg (by decide), if_neg (by decide), if_pos rfl]
        exact ih f hrs mns v hps hlen2

theorem length_le_flatMap_pairs (pairs : List (List Char × Char)) :
    pairs.length ≤ (pairs.flatMap (fun p => p.1 ++ [p.2])).length := by
  induction pairs with
  | nil => simp
  | cons p ps ih =>
    rw [List.flatMap_cons, List.length_append, List.length_cons]
    have h1 : 1 ≤ (p.1 ++ [p.2]).length := by simp
    omega

/-- C5 counterexample: `"PTX5S"` starts with `PT` and contains the
unrecognized unit letter `X`, yet the parser returns `some 0` rather than
`none`: a letter not directly preceded by digits merely terminates the
scan loop, silently discarding the rest of the string. -/
theorem duration_parse_counterexample :
    parse_iso8601_duration_seconds "PTX5S" = some 0 ∧
      ('X' ∈ "PTX5S".data ∧ 'X' ≠ 'H' ∧ 'X' ≠ 'M' ∧ 'X' ≠ 'S') := by
  constructor
  · simp +decide [parse_iso8601_duration_seconds, durLoop, strStartsWith]
  · exact ⟨by decide, by decide, by decide, by decide⟩

/-- C5 (amended): `parse_iso8601_duration_seconds` returns `none` (never a
fatal error) for every input that does not start with `PT`, and for every
input in which a scanned digit/dot group — after any number of validly
scanned group-unit pairs — is directly followed by a letter outside
`{H, M, S}` (e.g. `PT3M5X`); an unrecognized letter NOT preceded by digits
instead terminates the scan silently, returning the sum accumulated so far
(counterexample `PTX5S ↦ 0`). Parseable `PT[nH][nM][nS]` inputs yield the
total in seconds — `PT3M30S` yields 210 — and an unresolvable duration
only disables endNumber derivation in `handle_segment_template`, which
still returns success. -/
theorem duration_parse_behavior :
    (∀ s : String, strStartsWith s "PT" = false →
        parse_iso8601_duration_seconds s = none)
    ∧ (∀ (pairs : List (List Char × Char)) (ds : List Char) (u : Char)
        (rest : List Char),
        (∀ p ∈ pairs, p.1 ≠ [] ∧ (∀ c ∈ p.1, (c.isDigit = true ∨ c = '.')) ∧
          (parseDecimal p.1).isSome = true ∧
          (p.2 = 'H' ∨ p.2 = 'M' ∨ p.2 = 'S')) →
        ds ≠ [] → (∀ c ∈ ds, (c.isDigit = true ∨ c = '.')) →
        ¬(u.isDigit = true ∨ u = '.') → u ≠ 'H' → u ≠ 'M' → u ≠ 'S' →
        parse_iso8601_duration_seconds
          (String.mk ('P' :: 'T' ::
            (pairs.flatMap (fun p => p.1 ++ [p.2]) ++ ds ++ u :: rest)))
          = none)
    ∧ parse_iso8601_duration_seconds "PT3M30S" = some 210
    ∧ (∀ (ctx : MCtx) (st : MSt) (b : Url) (rid : String) (node : Xml),
        node.attr "initialization" = none → node.attr "endNumber" = none →
        handle_segment_template ctx st b rid node none = (st, true)) := by
  refine ⟨?_, ?_, ?_, ?_⟩
  · intro s h
    unfold parse_iso8601_duration_seconds
    rw [h]
    rfl
  · intro pairs ds u rest hp hne hds hu hH hM hS
    set L := pairs.flatMap (fun p => p.1 ++ [p.2]) ++ ds ++ u :: rest with hL
    unfold parse_iso8601_duration_seconds
    have hpre : strStartsWith (String.mk ('P' :: 'T' :: L)) "PT" = true := by
      simp [strStartsWith, List.isPrefixOf]
    rw [hpre]
    dsimp only
    rw [show (String.mk ('P' :: 'T' :: L)).toList = 'P' :: 'T' :: L from rfl,
      show ('P' :: 'T' :: L).drop 2 = L from rfl]
    have hfl := length_le_flatMap_pairs pairs
    have hdpos : 1 ≤ ds.length := List.length_pos.mpr hne
    have hLlen : L.length =
        (pairs.flatMap (fun p => p.1 ++ [p.2])).length + ds.length +
          (rest.length + 1) := by
      rw [hL]
      simp [List.length_append]
      omega
    obtain ⟨k, hk⟩ : ∃ k, L.length = k + 1 := ⟨L.length - 1, by omega⟩
    rw [hk]
    exact durLoop_scan_bad ds u rest hne hds hu hH hM hS pairs k 0 0 0 hp
      (by omega)
  · simp +decide [parse_iso8601_duration_seconds, durLoop, parseDecimal,
      digitsVal, strStartsWith, chSplit, List.foldl]
    norm_num
  · intro ctx st b rid node hinit hend
    unfold handle_segment_template
    rw [hinit]
    dsimp only
    cases hm : node.attr "media" with
    | none => rfl
    | some m =>
      by_cases hme : m = ""
      · simp [hme]
      · simp only [hme, if_false, reduceIte]
        rw [hend]
        cases hdu : node.attr "duration" with
        | none => rfl
        | some dv =>
          cases hpu : parseU64 dv with
          | none => simp [hpu, derivedEndNumber]
          | some dn => simp [hpu, derivedEndNumber]

theorem duration_parse_behavior_witness :
    strStartsWith "3M30S" "PT" = false ∧
      parse_iso8601_duration_seconds "3M30S" = none ∧
      parse_iso8601_duration_seconds "PT3M5X" = none :=
  ⟨by decide, duration_parse_behavior.1 "3M30S" (by decide),
   duration_parse_behavior.2.1 [(['3'], 'M')] ['5'] 'X' []
     (by decide) (by decide) (by decide) (by decide) (by decide) (by decide)
     (by decide)⟩

/-! ## C4: DASH segment-count derivation -/

/-- A SegmentTemplate node with the claim's attributes. -/
def c4node : Xml :=
  Xml.elem "SegmentTemplate"
    [("media", "seg$Number$.ts"), ("timescale", "1000"),
     ("duration", "2000"), ("startNumber", "1")] []

def c4base : Url := ⟨"https", "h", "/d/", none⟩

def c4ctx : MCtx :=
  { fetch := fun _ => some "S", parseXml := fun _ => none,
    master := ["d", "m.mpd"], outDir := ["o"] }

def c4seg (n : ℕ) : Url := ⟨"https", "h", "/d/seg" ++ toString n ++ ".ts", none⟩

/-- C4: with `endNumber` absent but `duration` (units) and the
presentation duration (seconds) known, the derived range is
`segment_seconds = duration / timescale`,
`count = ceil(total_seconds / segment_seconds)`,
`endNumber = startNumber + count - 1`, and the loop enumerates exactly the
indices in `[startNumber, endNumber]`. In particular `timescale=1000`,
`duration=2000`, presentation duration `PT10S`, `startNumber=1` give
`segment_seconds = 2`, `count = 5`, and a run of
`handle_segment_template` fetches exactly segments 1..5. -/
theorem segment_range_derivation :
    (∀ (timescale du startNumber : ℕ) (total : ℚ),
        derivedEndNumber timescale (some du) startNumber none (some total) =
          some (startNumber +
            (Int.ceil (total / ((du : ℚ) / (timescale : ℚ)))).toNat - 1))
    ∧ (∀ s e n : ℕ, n ∈ segmentRange s e ↔ s ≤ n ∧ n ≤ e)
    ∧ parse_iso8601_duration_seconds "PT10S" = some 10
    ∧ (2000 : ℚ) / (1000 : ℚ) = 2
    ∧ (Int.ceil ((10 : ℚ) / ((2000 : ℚ) / (1000 : ℚ)))).toNat = 5
    ∧ derivedEndNumber 1000 (some 2000) 1 none (some 10) = some 5
    ∧ segmentRange 1 5 = [1, 2, 3, 4, 5]
    ∧ (handle_segment_template c4ctx ⟨[], [], [], []⟩ c4base "r" c4node
        (some 10)).1.fetchLog = [c4seg 1, c4seg 2, c4seg 3, c4seg 4, c4seg 5]
    ∧ (handle_segment_template c4ctx ⟨[], [], [], []⟩ c4base "r" c4node
        (some 10)).2 = true := by
  have hceil : (Int.ceil ((10 : ℚ) / ((2000 : ℚ) / (1000 : ℚ)))).toNat = 5 := by
    norm_num
    try rfl
  have hde : derivedEndNumber 1000 (some 2000) 1 none (some 10) = some 5 := by
    unfold derivedEndNumber
    dsimp only
    norm_num
    try rfl
  have hrun : handle_segment_template c4ctx ⟨[], [], [], []⟩ c4base "r" c4node
      (some 10) =
      forEachM (fun st2 num =>
          mirror_binary c4ctx st2 (urlJoin c4base (strTrim
            (strReplace (strReplace "seg$Number$.ts" "$RepresentationID$" "r")
              "$Number$" (toString num)))))
        (segmentRange 1 5) ⟨[], [], [], []⟩ := by
    unfold handle_segment_template
    rw [show c4node.attr "initialization" = none from rfl]
    dsimp only
    rw [show c4node.attr "media" = some "seg$Number$.ts" from rfl]
    dsimp only
    rw [if_neg (by decide : ¬("seg$Number$.ts" : String) = "")]
    rw [show ((c4node.attr "timescale").bind parseU64).getD 1 = 1000 from by decide,
      show (c4node.attr "duration").bind parseU64 = some 2000 from by decide,
      show ((c4node.attr "startNumber").bind parseU64).getD 1 = 1 from by decide,
      show (c4node.attr "endNumber").bind parseU64 = none from rfl]
    rw [hde]
    rfl
  refine ⟨fun _ _ _ _ => rfl, ?_, ?_, by norm_num, hceil, hde, by decide, ?_, ?_⟩
  · intro s e n
    unfold segmentRange
    rw [List.mem_range'_1]
    omega
  · simp +decide [parse_iso8601_duration_seconds, durLoop, parseDecimal,
      digitsVal, strStartsWith, chSplit, List.foldl]
  · rw [hrun]; decide
  · rw [hrun]; decide

/-! ## C9: DASH BaseURL / SegmentTemplate scope inheritance -/

/-- Modelled from the spec (C9 wording): the effective BaseURL of a level
is the parent level's BaseURL joined with that level's own BaseURL element
if it declares one, and the parent's BaseURL unchanged otherwise. -/
def specEffectiveBase (parent : Url) (node : Xml) : Url :=
  match first_child_text node "BaseURL" with
  | some declared => urlJoin parent (strTrim declared)
  | none => parent

/-- Modelled from the spec (C9 wording): a Representation's effective
SegmentTemplate is its own SegmentTemplate child if present, otherwise the
AdaptationSet-level SegmentTemplate. -/
def specEffectiveTemplate (asetSt : Option Xml) (rep : Xml) : Option Xml :=
  match first_child_element rep "SegmentTemplate" with
  | some own => some own
  | none => asetSt

/-- Modelled from the spec (C9 wording): the Period → AdaptationSet →
Representation walk, threading the effective BaseURL from the manifest URL
as root scope and the effective SegmentTemplate per Representation. -/
def specRepScopes (mpdUrl : Url) (root : Xml) :
    List (String × Url × Option Xml) :=
  (childElems root "Period").flatMap fun period =>
    let periodBase := specEffectiveBase mpdUrl period
    (childElems period "AdaptationSet").flatMap fun aset =>
      let asetBase := specEffectiveBase periodBase aset
      let asetSt := first_child_element aset "SegmentTemplate"
      (childElems aset "Representation").filterMap fun rep =>
        (rep.attr "id").map fun rid =>
          (rid, specEffectiveBase asetBase rep, specEffectiveTemplate asetSt rep)

/-- C9: the BaseURL scope the code computes at each level of the walk is
exactly the parent scope joined with the declared BaseURL (else inherited
unchanged), with the manifest URL as root, and the effective
SegmentTemplate of a Representation is its own if present else the
AdaptationSet's: the code's walk projects onto the spec's walk. -/
theorem dash_scope_inheritance :
    (∀ (parent : Url) (node : Xml),
        scopedBase parent node = specEffectiveBase parent node)
    ∧ (∀ (parent : Url) (rep : Xml),
        (repBaseFile parent rep).1 = specEffectiveBase parent rep)
    ∧ (∀ (asetSt : Option Xml) (rep : Xml),
        repTemplate asetSt rep = specEffectiveTemplate asetSt rep)
    ∧ (∀ (mpdUrl : Url) (root : Xml),
        (mpdRepScopes mpdUrl root).map (fun s => (s.id, s.base, s.template)) =
          specRepScopes mpdUrl root) := by
  have h1 : ∀ (parent : Url) (node : Xml),
      scopedBase parent node = specEffectiveBase parent node := by
    intro parent node
    unfold scopedBase specEffectiveBase
    cases first_child_text node "BaseURL" <;> rfl
  have h2 : ∀ (parent : Url) (rep : Xml),
      (repBaseFile parent rep).1 = specEffectiveBase parent rep := by
    intro parent rep
    unfold repBaseFile specEffectiveBase
    cases first_child_text rep "BaseURL" <;> rfl
  have h3 : ∀ (asetSt : Option Xml) (rep : Xml),
      repTemplate asetSt rep = specEffectiveTemplate asetSt rep := by
    intro asetSt rep
    unfold repTemplate specEffectiveTemplate
    cases first_child_element rep "SegmentTemplate" <;> rfl
  refine ⟨h1, h2, h3, ?_⟩
  intro mpdUrl root
  unfold mpdRepScopes specRepScopes
  rw [List.map_flatMap]
  congr 1
  funext period
  dsimp only
  rw [h1, List.map_flatMap]
  congr 1
  funext aset
  dsimp only
  rw [h1, List.map_filterMap]
  congr 1
  funext rep
  dsimp only
  cases rep.attr "id" with
  | none => rfl
  | some rid =>
    rw [h2, h3]
    rfl

/-! ## C3: the non-HLS fallback in `mirror_manifest` -/

def c3url : Url := ⟨"https", "h", "/a/x.m3u8", none⟩

def c3ctx : MCtx :=
  { fetch := fun u => if u = c3url then some "hello" else none,
    parseXml := fun _ => none, master := ["a", "x.m3u8"], outDir := ["o"] }

/-- C3 (code bug): when the fetched text does not start with `#EXTM3U`,
`mirror_manifest` delegates to `mirror_binary` on the SAME URL — but it
already inserted that URL into the visited set before fetching, so
`mirror_binary` returns immediately at its visited check. The run
continues without error (flag `true`) and the URL was fetched once, but
NO file is written, contradicting the announced "saving as binary"
behavior: `files` is empty. -/
theorem manifest_binary_fallback_writes_nothing :
    (mirror_manifest c3ctx 2 ⟨[], [], [], []⟩ c3url).2 = true
    ∧ (mirror_manifest c3ctx 2 ⟨[], [], [], []⟩ c3url).1.files = []
    ∧ (mirror_manifest c3ctx 2 ⟨[], [], [], []⟩ c3url).1.fetchLog = [c3url]
    ∧ strStartsWith (strTrimStart "hello") "#EXTM3U" = false :=
  ⟨by decide, by decide, by decide, by decide⟩

/-! ## C6: HLS tag-line rewriting -/

def c6master : Url := ⟨"https", "h", "/a/m.m3u8", none⟩
def c6key : Url := ⟨"https", "h", "/a/k.key", none⟩
def c6seg : Url := ⟨"https", "h", "/a/seg.ts", some "t=1"⟩

def c6text : String :=
  "#EXTM3U\n#EXT-X-KEY:METHOD=AES-128,URI=\"k.key\"\nseg.ts?t=1"

def c6ctx : MCtx :=
  { fetch := fun u =>
      if u = c6master then some c6text
      else if u = c6key then some "K"
      else if u = c6seg then some "D"
      else none,
    parseXml := fun _ => none, master := ["a", "m.m3u8"], outDir := ["o"] }

/-- C6 counterexample: in a playlist containing a `URI="…"` tag line AND a
bare URI line, the bare line is NOT preserved byte-for-byte: the written
rewritten playlist replaces `seg.ts?t=1` by `seg__q_t_1.ts`, so "all other
lines of the playlist are preserved byte-for-byte" fails as stated. -/
theorem hls_line_preservation_counterexample :
    (mirror_manifest c6ctx 2 ⟨[], [], [], []⟩ c6master).1.files.getLast? =
      some (["o", "m.m3u8"],
        "#EXTM3U\n#EXT-X-KEY:METHOD=AES-128,URI=\"k.key\"\nseg__q_t_1.ts\n")
    ∧ (linesRust c6text).getLast? = some "seg.ts?t=1"
    ∧ ("seg__q_t_1.ts" : String) ≠ "seg.ts?t=1" :=
  ⟨by decide, by decide, by decide⟩

/-- C6 (amended): per processed line, (1) a tag line carrying a `URI="…"`
attribute is rewritten by replacing exactly the characters between `URI="`
and the next `"` with the `/`-joined relative path of the mirrored child —
every other character of the line is preserved; (2) tag lines without a
URI attribute and (3) blank lines are emitted unchanged; (4) a bare
(non-comment, non-blank) URI line is replaced wholesale by the `/`-joined
relative path. -/
theorem hls_line_rewrite_frame :
    (∀ (ctx : MCtx) (recM : MSt → Url → MSt × Bool) (u : Url)
        (localDir : FsPath) (st : MSt) (line : String) (s e : Nat),
        strStartsWith (strTrim line) "#" = true →
        find_uri_attr line = some (s, e) →
        (processLine ctx recM u localDir st line).2.2 = true →
        ∃ target : FsPath,
          (processLine ctx recM u localDir st line).1 =
            strTake line s ++ strJoinSlash (diffPaths target localDir) ++
              strDrop line e)
    ∧ (∀ (ctx : MCtx) (recM : MSt → Url → MSt × Bool) (u : Url)
        (localDir : FsPath) (st : MSt) (line : String),
        strStartsWith (strTrim line) "#" = true →
        find_uri_attr line = none →
        (processLine ctx recM u localDir st line).1 = line)
    ∧ (∀ (ctx : MCtx) (recM : MSt → Url → MSt × Bool) (u : Url)
        (localDir : FsPath) (st : MSt) (line : String),
        strTrim line = "" →
        (processLine ctx recM u localDir st line).1 = line)
    ∧ (∀ (ctx : MCtx) (recM : MSt → Url → MSt × Bool) (u : Url)
        (localDir : FsPath) (st : MSt) (line : String),
        strTrim line ≠ "" → strStartsWith (strTrim line) "#" = false →
        (processLine ctx recM u localDir st line).2.2 = true →
        ∃ target : FsPath,
          (processLine ctx recM u localDir st line).1 =
            strJoinSlash (diffPaths target localDir)) := by
  have hcs : ∀ (ctx : MCtx) (recM : MSt → Url → MSt × Bool) (u : Url)
      (localDir : FsPath) (st : MSt) (uriVal : String),
      (childStep ctx recM u localDir st uriVal).2.2 = true →
      ∃ target : FsPath, (childStep ctx recM u localDir st uriVal).1 =
        strJoinSlash (diffPaths target localDir) := by
    intro ctx recM u dir st uriVal h
    unfold childStep at h ⊢
    dsimp only at h ⊢
    by_cases hr : (if isManifestUrl (urlJoin u uriVal) = true
        then recM st (urlJoin u uriVal)
        else mirror_binary ctx st (urlJoin u uriVal)).2 = false
    · rw [if_pos hr] at h; simp at h
    · rw [if_neg hr]
      exact ⟨_, rfl⟩
  refine ⟨?_, ?_, ?_, ?_⟩
  · intro ctx recM u dir st line s e htag huri hok
    unfold processLine at hok ⊢
    dsimp only at hok ⊢
    rw [htag, if_pos rfl, huri] at hok ⊢
    dsimp only at hok ⊢
    by_cases hflag :
        (childStep ctx recM u dir st (strDrop (strTake line e) s)).2.2 = false
    · rw [if_pos hflag] at hok; simp at hok
    · rw [if_neg hflag] at hok ⊢
      obtain ⟨t, ht⟩ := hcs ctx recM u dir st (strDrop (strTake line e) s)
        (by simpa using hflag)
      exact ⟨t, by dsimp only; rw [ht]⟩
  · intro ctx recM u dir st line htag huri
    unfold processLine
    dsimp only
    rw [htag, if_pos rfl, huri]
  · intro ctx recM u dir st line hblank
    unfold processLine
    dsimp only
    rw [hblank, show strStartsWith "" "#" = false from by decide]
    simp
  · intro ctx recM u dir st line hnb htag hok
    unfold processLine at hok ⊢
    dsimp only at hok ⊢
    rw [htag] at hok ⊢
    rw [if_neg (by simp : ¬(false = true))] at hok ⊢
    rw [if_neg hnb] at hok ⊢
    by_cases hflag : (childStep ctx recM u dir st (strTrim line)).2.2 = false
    · rw [if_pos hflag] at hok; simp at hok
    · rw [if_neg hflag] at hok ⊢
      obtain ⟨t, ht⟩ := hcs ctx recM u dir st (strTrim line)
        (by simpa using hflag)
      exact ⟨t, ht⟩

theorem hls_line_rewrite_frame_witness :
    ∃ target : FsPath,
      (processLine c6ctx (mirror_manifest c6ctx 1) c6master ["o"]
          ⟨[], [], [], []⟩ "#EXT-X-KEY:METHOD=AES-128,URI=\"k.key\"").1 =
        strTake "#EXT-X-KEY:METHOD=AES-128,URI=\"k.key\"" 31 ++
          strJoinSlash (diffPaths target ["o"]) ++
          strDrop "#EXT-X-KEY:METHOD=AES-128,URI=\"k.key\"" 36 :=
  hls_line_rewrite_frame.1 c6ctx (mirror_manifest c6ctx 1) c6master ["o"]
    ⟨[], [], [], []⟩ "#EXT-X-KEY:METHOD=AES-128,URI=\"k.key\"" 31 36
    (by decide) (by decide) (by decide)

/-! ## C1: the visited-set gate

The crawl invariant `GInv`: URLs are marked in `visited` at most once, each
URL is fetched at most once, and every URL that was ever fetched is in the
visited set — each routine inserts into `visited` strictly before issuing
its `GET`, so a URL enters `fetchLog` only after (and because) its
insertion succeeded. -/

def GInv (st : MSt) : Prop :=
  st.visited.Nodup ∧ st.fetchLog.Nodup ∧ ∀ u ∈ st.fetchLog, u ∈ st.visited

/-- Step contract: the invariant is preserved and the visited set only
grows. -/
def Pres (st st2 : MSt) : Prop :=
  (GInv st → GInv st2) ∧ st.visited ⊆ st2.visited

theorem pres_rfl (st : MSt) : Pres st st := ⟨id, fun _ hx => hx⟩

theorem pres_trans {a b c : MSt} (h1 : Pres a b) (h2 : Pres b c) : Pres a c :=
  ⟨fun hg => h2.1 (h1.1 hg), fun _ hx => h2.2 (h1.2 hx)⟩

theorem pres_cacheOnly (st : MSt) (c : List (Url × FsPath)) :
    Pres st { st with cache := c } := ⟨fun h => h, fun _ hx => hx⟩

theorem pres_filesOnly (st : MSt) (fs : List (FsPath × String)) :
    Pres st { st with files := fs } := ⟨fun h => h, fun _ hx => hx⟩

/-- Marking an unvisited URL and logging one fetch of it preserves the
invariant, whatever happens to the cache and the files. -/
theorem pres_mark_fetch (st : MSt) (u : Url) (hm : u ∉ st.visited)
    (c : List (Url × FsPath)) (fs : List (FsPath × String)) :
    Pres st ⟨u :: st.visited, c, st.fetchLog ++ [u], fs⟩ := by
  constructor
  · rintro ⟨h1, h2, h3⟩
    refine ⟨List.nodup_cons.mpr ⟨hm, h1⟩, ?_, ?_⟩
    · rw [List.nodup_append]
      refine ⟨h2, List.nodup_singleton u, ?_⟩
      intro a ha hb
      rw [List.mem_singleton] at hb
      subst hb
      exact hm (h3 a ha)
    · intro x hx
      rcases List.mem_append.mp hx with hx | hx
      · exact List.mem_cons_of_mem _ (h3 x hx)
      · rw [List.mem_singleton] at hx
        subst hx
        exact List.mem_cons_self _ _
  · exact fun x hx => List.mem_cons_of_mem _ hx

theorem mirror_binary_pres (ctx : MCtx) (st : MSt) (u : Url) :
    Pres st (mirror_binary ctx st u).1 := by
  unfold mirror_binary
  by_cases hm : u ∈ st.visited
  · rw [if_pos hm]; exact pres_rfl st
  · rw [if_neg hm]
    dsimp only
    cases hf : ctx.fetch u with
    | none => exact pres_mark_fetch st u hm _ _
    | some bytes => exact pres_mark_fetch st u hm _ _

theorem childStep_pres (ctx : MCtx) (recM : MSt → Url → MSt × Bool)
    (u : Url) (dir : FsPath) (st : MSt) (uriVal : String)
    (hrec : ∀ st2 u2, Pres st2 (recM st2 u2).1) :
    Pres st (childStep ctx recM u dir st uriVal).2.1 := by
  unfold childStep
  dsimp only
  by_cases hman : isManifestUrl (urlJoin u uriVal) = true
  · rw [if_pos hman]
    by_cases hr : (recM st (urlJoin u uriVal)).2 = false
    · rw [if_pos hr]; exact hrec st _
    · rw [if_neg hr]
      exact pres_trans (hrec st _) (pres_cacheOnly _ _)
  · rw [if_neg hman]
    by_cases hr : (mirror_binary ctx st (urlJoin u uriVal)).2 = false
    · rw [if_pos hr]; exact mirror_binary_pres ctx st _
    · rw [if_neg hr]
      exact pres_trans (mirror_binary_pres ctx st _) (pres_cacheOnly _ _)

theorem processLine_pres (ctx : MCtx) (recM : MSt → Url → MSt × Bool)
    (u : Url) (dir : FsPath)
    (hrec : ∀ st2 u2, Pres st2 (recM st2 u2).1) :
    ∀ (st : MSt) (line : String),
      Pres st (processLine ctx recM u dir st line).2.1 := by
  intro st line
  unfold processLine
  dsimp only
  by_cases htag : strStartsWith (strTrim line) "#" = true
  · rw [if_pos htag]
    cases huri : find_uri_attr line with
    | some se =>
      dsimp only
      by_cases hflag : (childStep ctx recM u dir st
          (strDrop (strTake line se.2) se.1)).2.2 = false
      · rw [if_pos hflag]
        exact childStep_pres ctx recM u dir st _ hrec
      · rw [if_neg hflag]
        exact childStep_pres ctx recM u dir st _ hrec
    | none => exact pres_rfl st
  · rw [if_neg htag]
    by_cases hblank : strTrim line = ""
    · rw [if_pos hblank]; exact pres_rfl st
    · rw [if_neg hblank]
      by_cases hflag : (childStep ctx recM u dir st (strTrim line)).2.2 = false
      · rw [if_pos hflag]
        exact childStep_pres ctx recM u dir st _ hrec
      · rw [if_neg hflag]
        exact childStep_pres ctx recM u dir st _ hrec

theorem foldLines_pres (f : MSt → String → String × MSt × Bool)
    (hf : ∀ st l, Pres st (f st l).2.1) :
    ∀ (ls : List String) (st : MSt), Pres st (foldLines f ls st).2.1 := by
  intro ls
  induction ls with
  | nil => intro st; exact pres_rfl st
  | cons l ls ih =>
    intro st
    unfold foldLines
    dsimp only
    by_cases h : (f st l).2.2 = false
    · rw [if_pos h]; exact hf st l
    · rw [if_neg h]
      exact pres_trans (hf st l) (ih (f st l).2.1)

theorem mirror_manifest_pres (ctx : MCtx) :
    ∀ (fuel : ℕ) (st : MSt) (u : Url),
      Pres st (mirror_manifest ctx fuel st u).1 := by
  intro fuel
  induction fuel with
  | zero => intro st u; exact pres_rfl st
  | succ n ih =>
    intro st u
    show Pres st (mirror_manifest ctx (n + 1) st u).1
    unfold mirror_manifest
    dsimp only
    by_cases hm : u ∈ st.visited
    · rw [if_pos hm]; exact pres_rfl st
    · rw [if_neg hm]
      try dsimp only
      cases hf : ctx.fetch u with
      | none => exact pres_mark_fetch st u hm _ _
      | some text =>
        dsimp only
        by_cases hsig : strStartsWith (strTrimStart text) "#EXTM3U" = false
        · rw [if_pos hsig]
          exact pres_trans (pres_mark_fetch st u hm _ _)
            (mirror_binary_pres ctx _ u)
        · rw [if_neg hsig]
          try dsimp only
          cases hp : pathParent
              (path_for_url ctx.master ctx.outDir st.cache u true).1 with
          | none => exact pres_mark_fetch st u hm _ _
          | some dir =>
            dsimp only
            have hstep := pres_mark_fetch st u hm
              (path_for_url ctx.master ctx.outDir st.cache u true).2
              (st.files ++ [(origPathFor
                (path_for_url ctx.master ctx.outDir st.cache u true).1
                "manifest.m3u8.orig", text)])
            have hfold := foldLines_pres
              (processLine ctx (mirror_manifest ctx n) u dir)
              (fun st2 l => processLine_pres ctx _ u dir
                (fun st3 u3 => ih st3 u3) st2 l)
              (linesRust text)
              ⟨u :: st.visited,
                (path_for_url ctx.master ctx.outDir st.cache u true).2,
                st.fetchLog ++ [u],
                st.files ++ [(origPathFor
                  (path_for_url ctx.master ctx.outDir st.cache u true).1
                  "manifest.m3u8.orig", text)]⟩
            by_cases hr : (foldLines
                (processLine ctx (mirror_manifest ctx n) u dir)
                (linesRust text)
                ⟨u :: st.visited,
                  (path_for_url ctx.master ctx.outDir st.cache u true).2,
                  st.fetchLog ++ [u],
                  st.files ++ [(origPathFor
                    (path_for_url ctx.master ctx.outDir st.cache u true).1
                    "manifest.m3u8.orig", text)]⟩).2.2 = false
            · rw [if_pos hr]
              exact pres_trans hstep hfold
            · rw [if_neg hr]
              exact pres_trans (pres_trans hstep hfold) (pres_filesOnly _ _)

theorem forEachM_pres {α : Type} (f : MSt → α → MSt × Bool)
    (hf : ∀ st x, Pres st (f st x).1) :
    ∀ (xs : List α) (st : MSt), Pres st (forEachM f xs st).1 := by
  intro xs
  induction xs with
  | nil => intro st; exact pres_rfl st
  | cons x xs ih =>
    intro st
    unfold forEachM
    dsimp only
    by_cases h : (f st x).2 = false
    · rw [if_pos h]; exact hf st x
    · rw [if_neg h]
      exact pres_trans (hf st x) (ih (f st x).1)

theorem handle_segment_template_pres (ctx : MCtx) (st : MSt) (b : Url)
    (rid : String) (node : Xml) (dur : Option ℚ) :
    Pres st (handle_segment_template ctx st b rid node dur).1 := by
  unfold handle_segment_template
  dsimp only
  have hrest : ∀ st1 : MSt, Pres st st1 →
      Pres st ((match node.attr "media" with
        | none => (st1, true)
        | some media =>
          if media = "" then (st1, true)
          else
            match derivedEndNumber (((node.attr "timescale").bind parseU64).getD 1)
                ((node.attr "duration").bind parseU64)
                (((node.attr "startNumber").bind parseU64).getD 1)
                ((node.attr "endNumber").bind parseU64) dur with
            | none => (st1, true)
            | some endNumber =>
              forEachM (fun st2 num =>
                  mirror_binary ctx st2 (urlJoin b (strTrim
                    (strReplace (strReplace media "$RepresentationID$" rid)
                      "$Number$" (toString num)))))
                (segmentRange (((node.attr "startNumber").bind parseU64).getD 1)
                  endNumber) st1 : MSt × Bool).1) := by
    intro st1 h1
    cases node.attr "media" with
    | none => exact h1
    | some media =>
      dsimp only
      by_cases hme : media = ""
      · rw [if_pos hme]; exact h1
      · rw [if_neg hme]
        cases derivedEndNumber (((node.attr "timescale").bind parseU64).getD 1)
            ((node.attr "duration").bind parseU64)
            (((node.attr "startNumber").bind parseU64).getD 1)
            ((node.attr "endNumber").bind parseU64) dur with
        | none => exact h1
        | some endNumber =>
          exact pres_trans h1 (forEachM_pres _
            (fun st2 num => mirror_binary_pres ctx st2 _) _ st1)
  cases hinit : node.attr "initialization" with
  | none =>
    dsimp only
    rw [if_neg (by simp : ¬(true = false))]
    exact hrest st (pres_rfl st)
  | some tmpl =>
    dsimp only
    by_cases hr : (mirror_binary ctx st (urlJoin b (strTrim
        (strReplace tmpl "$RepresentationID$" rid)))).2 = false
    · rw [if_pos hr]
      exact mirror_binary_pres ctx st _
    · rw [if_neg hr]
      exact hrest _ (mirror_binary_pres ctx st _)

theorem perRep_pres (ctx : MCtx) (dur : Option ℚ) (st : MSt)
    (scope : RepScope) : Pres st (perRep ctx dur st scope).1 := by
  unfold perRep
  dsimp only
  have h1 : Pres st (match scope.template with
      | some t => handle_segment_template ctx st scope.base scope.id t dur
      | none => (st, true) : MSt × Bool).1 := by
    cases scope.template with
    | some t => exact handle_segment_template_pres ctx st _ _ t dur
    | none => exact pres_rfl st
  by_cases hr : (match scope.template with
      | some t => handle_segment_template ctx st scope.base scope.id t dur
      | none => (st, true) : MSt × Bool).2 = false
  · rw [if_pos hr]; exact h1
  · rw [if_neg hr]
    by_cases hfile : scope.isFile = true
    · rw [if_pos hfile]
      exact pres_trans h1 (mirror_binary_pres ctx _ _)
    · rw [if_neg hfile]
      exact h1

theorem mirror_mpd_pres (ctx : MCtx) (st : MSt) (u : Url) :
    Pres st (mirror_mpd ctx st u).1 := by
  unfold mirror_mpd
  by_cases hm : u ∈ st.visited
  · rw [if_pos hm]; exact pres_rfl st
  · rw [if_neg hm]
    dsimp only
    cases hf : ctx.fetch u with
    | none => exact pres_mark_fetch st u hm _ _
    | some text =>
      dsimp only
      cases hx : ctx.parseXml text with
      | none => exact pres_mark_fetch st u hm _ _
      | some root =>
        dsimp only
        by_cases hroot : root.name ≠ "MPD"
        · rw [if_pos hroot]
          exact pres_trans (pres_mark_fetch st u hm _ _)
            (mirror_binary_pres ctx _ u)
        · rw [if_neg hroot]
          exact pres_trans (pres_mark_fetch st u hm _ _)
            (forEachM_pres _ (fun st2 sc => perRep_pres ctx _ st2 sc) _ _)

/-! ### The C1 claim -/

def dedupMaster : Url := ⟨"https", "h", "/a/m.m3u8", none⟩
def dedupChild : Url := ⟨"https", "h", "/a/seg.ts", none⟩

def dedupCtx : MCtx :=
  { fetch := fun u =>
      if u = dedupMaster then some "#EXTM3U\nseg.ts\nseg.ts"
      else if u = dedupChild then some "DATA"
      else none,
    parseXml := fun _ => none,
    master := ["a", "m.m3u8"], outDir := ["o"] }

/-- C1: every URL fetched by `mirror_binary`, `mirror_manifest` or
`mirror_mpd` was inserted into the visited set (exactly once — the set
stays duplicate-free) before the fetch was issued, and no URL is ever
fetched twice (the fetch log stays duplicate-free). Consequently, a
manifest referencing the same child URL twice (`seg.ts` twice in the
concrete run) performs exactly one fetch of the child and writes exactly
one local file for it. -/
theorem mirror_visited_gate_dedup :
    (∀ (ctx : MCtx) (st : MSt) (u : Url), GInv st →
        GInv (mirror_binary ctx st u).1)
    ∧ (∀ (ctx : MCtx) (fuel : ℕ) (st : MSt) (u : Url), GInv st →
        GInv (mirror_manifest ctx fuel st u).1)
    ∧ (∀ (ctx : MCtx) (st : MSt) (u : Url), GInv st →
        GInv (mirror_mpd ctx st u).1)
    ∧ (mirror_manifest dedupCtx 2 ⟨[], [], [], []⟩ dedupMaster).2 = true
    ∧ (mirror_manifest dedupCtx 2 ⟨[], [], [], []⟩
        dedupMaster).1.fetchLog.count dedupChild = 1
    ∧ ((mirror_manifest dedupCtx 2 ⟨[], [], [], []⟩ dedupMaster).1.files.filter
        (fun f => f.1 = ["o", "seg.ts"])).length = 1
    ∧ (mirror_manifest dedupCtx 2 ⟨[], [], [], []⟩ dedupMaster).1.visited.Nodup := by
  refine ⟨?_, ?_, ?_, by decide, by decide, by decide, by decide⟩
  · exact fun ctx st u h => (mirror_binary_pres ctx st u).1 h
  · exact fun ctx fuel st u h => (mirror_manifest_pres ctx fuel st u).1 h
  · exact fun ctx st u h => (mirror_mpd_pres ctx st u).1 h

theorem mirror_visited_gate_dedup_witness :
    GInv ⟨[], [], [], []⟩ ∧
      GInv (mirror_binary dedupCtx ⟨[], [], [], []⟩ dedupChild).1 :=
  ⟨⟨List.nodup_nil, List.nodup_nil, by simp⟩,
   mirror_visited_gate_dedup.1 dedupCtx ⟨[], [], [], []⟩ dedupChild
     ⟨List.nodup_nil, List.nodup_nil, by simp⟩⟩

end StreamRip
